import Mathlib

/-!
Verification of the extraction-and-normalization pipeline of a B2B
marketplace scraping project.  The pure field extractors
(`clean_price_text`, `extract_price_unit`, `normalize_location`,
`calculate_text_similarity`), the dataset cleaner
(`DataCleaner.clean_text_columns` … `remove_duplicates`), the similarity
deduplicator (`detect_duplicate_products`) and the listing-link collector
(`get_product_urls`) are shallowly embedded below; Python regular
expressions are modelled by a small prioritized-backtracking matcher,
floats by `Rat`, NaN-able cells by `Option`.
-/

attribute [local semireducible] Rat.mul Rat.inv Rat.add Rat.sub Rat.ofScientific

/-- Python whitespace (regex `\s`, `str.strip`), ASCII scope. -/
def isPySpace (c : Char) : Bool :=
  c = ' ' || c = '\t' || c = '\n' || c = '\r' || c = '\x0b' || c = '\x0c'

/-- Regex `\d` (the ten ASCII digits). -/
def isDigitCh (c : Char) : Bool :=
  c = '0' || c = '1' || c = '2' || c = '3' || c = '4' ||
  c = '5' || c = '6' || c = '7' || c = '8' || c = '9'

/-- Regex `\w` (ASCII scope: letters, digits, underscore). -/
def isWordCh (c : Char) : Bool := c.isAlpha || isDigitCh c || c = '_'

/-- Python `str.lower` on one character (ASCII scope; other characters,
including the rupee sign, are unchanged). -/
def pyLower (c : Char) : Char :=
  match c with
  | 'A' => 'a' | 'B' => 'b' | 'C' => 'c' | 'D' => 'd' | 'E' => 'e'
  | 'F' => 'f' | 'G' => 'g' | 'H' => 'h' | 'I' => 'i' | 'J' => 'j'
  | 'K' => 'k' | 'L' => 'l' | 'M' => 'm' | 'N' => 'n' | 'O' => 'o'
  | 'P' => 'p' | 'Q' => 'q' | 'R' => 'r' | 'S' => 's' | 'T' => 't'
  | 'U' => 'u' | 'V' => 'v' | 'W' => 'w' | 'X' => 'x' | 'Y' => 'y'
  | 'Z' => 'z' | other => other

/-- Python `str.lower` on a character list. -/
def toLowerChars (cs : List Char) : List Char := cs.map pyLower

/-- Python `str.lower` on a string. -/
def toLowerStr (s : String) : String := ⟨toLowerChars s.data⟩

/-- Python `str.strip` (both ends). -/
def pyStrip (cs : List Char) : List Char :=
  ((cs.dropWhile isPySpace).reverse.dropWhile isPySpace).reverse

/-!  A prioritized backtracking matcher modelling Python `re`: a matcher
returns the list of all (captured value, remaining input) outcomes, most
preferred (greediest) first.  `re.search` takes the head of
`rxSearch pat input`. -/

/-- Matcher type: all outcomes in backtracking priority order. -/
def Rx (α : Type) : Type := List Char → List (α × List Char)

/-- Succeed without consuming input. -/
def rxPure (a : α) : Rx α := fun s => [(a, s)]

/-- Sequencing; outcome order is regex backtracking order. -/
def rxBind (p : Rx α) (f : α → Rx β) : Rx β :=
  fun s => (p s).flatMap fun ar => f ar.1 ar.2

/-- Match one character satisfying `pred` (a character class). -/
def rxCh (pred : Char → Bool) : Rx Char := fun s =>
  match s with
  | [] => []
  | c :: t => if pred c then [(c, t)] else []

/-- Greedy `?`: try the present alternative first. -/
def rxOpt (p : Rx α) : Rx (Option α) := fun s =>
  ((p s).map fun ar => (some ar.1, ar.2)) ++ [(none, s)]

/-- Greedy `*` over a character class: longest take first. -/
def rxStarCh (pred : Char → Bool) : Rx (List Char)
  | [] => [([], [])]
  | c :: t =>
    if pred c then
      ((rxStarCh pred t).map fun ar => (c :: ar.1, ar.2)) ++ [([], c :: t)]
    else [([], c :: t)]

/-- Greedy `+` over a character class. -/
def rxPlusCh (pred : Char → Bool) : Rx (List Char) :=
  rxBind (rxCh pred) fun c => rxBind (rxStarCh pred) fun cs => rxPure (c :: cs)

/-- Greedy `*` over a group matcher (most iterations first); fuelled, the
group must consume at least one character per iteration. -/
def rxStar (p : Rx (List Char)) : Nat → Rx (List (List Char))
  | 0 => rxPure []
  | n + 1 => fun s =>
    ((rxBind p fun a => rxBind (rxStar p n) fun as => rxPure (a :: as)) s)
      ++ [([], s)]

/-- `rxStar` with enough fuel for any input. -/
def rxStarF (p : Rx (List Char)) : Rx (List (List Char)) :=
  fun s => rxStar p (s.length + 1) s

/-- Anchor `$`. -/
def rxEnd : Rx Unit := fun s => match s with | [] => [((), [])] | _ => []

/-- `re.search`: try each start position left to right. -/
def rxSearch (p : Rx α) : List Char → List (α × List Char)
  | [] => p []
  | c :: t => p (c :: t) ++ rxSearch p t

/-! The numeric token pattern `\d+(?:,\d+)*(?:\.\d+)?` of
`clean_price_text`. -/

/-- `,\d+` (one thousands group), capturing its matched text. -/
def rxCommaGrp : Rx (List Char) :=
  rxBind (rxCh (· = ',')) fun _ =>
  rxBind (rxPlusCh isDigitCh) fun ds => rxPure (',' :: ds)

/-- `\.\d+` (fraction), capturing its matched text. -/
def rxFrac : Rx (List Char) :=
  rxBind (rxCh (· = '.')) fun _ =>
  rxBind (rxPlusCh isDigitCh) fun ds => rxPure ('.' :: ds)

/-- `\d+(?:,\d+)*(?:\.\d+)?`, capturing the whole number token. -/
def rxNum : Rx (List Char) :=
  rxBind (rxPlusCh isDigitCh) fun d1 =>
  rxBind (rxStarF rxCommaGrp) fun gs =>
  rxBind (rxOpt rxFrac) fun fr =>
  rxPure (d1 ++ gs.flatten ++ fr.getD [])

/-- The class `[-to]` of the range pattern (with `re.I`, so also `T`,`O`):
a SINGLE character, not the word "to". -/
def isRangeSep (c : Char) : Bool :=
  c = '-' || c = 't' || c = 'o' || c = 'T' || c = 'O'

/-- `₹?`. -/
def rxRupee : Rx (Option Char) := rxOpt (rxCh (· = '₹'))

/-- `\s*`. -/
def rxSpaces : Rx (List Char) := rxStarCh isPySpace

/-- The range pattern
`₹?\s*(\d+(?:,\d+)*(?:\.\d+)?)\s*[-to]\s*₹?\s*(\d+(?:,\d+)*(?:\.\d+)?)`
returning the two captured groups. -/
def rxRangePat : Rx (List Char × List Char) :=
  rxBind rxRupee fun _ =>
  rxBind rxSpaces fun _ =>
  rxBind rxNum fun g1 =>
  rxBind rxSpaces fun _ =>
  rxBind (rxCh isRangeSep) fun _ =>
  rxBind rxSpaces fun _ =>
  rxBind rxRupee fun _ =>
  rxBind rxSpaces fun _ =>
  rxBind rxNum fun g2 =>
  rxPure (g1, g2)

/-- The single-price pattern `₹?\s*(\d+(?:,\d+)*(?:\.\d+)?)`. -/
def rxSinglePat : Rx (List Char) :=
  rxBind rxRupee fun _ => rxBind rxSpaces fun _ => rxNum

/-! Unit extraction patterns of `extract_price_unit`. -/

/-- `per\s+(\w+)`. -/
def rxPerPat : Rx (List Char) :=
  rxBind (rxCh (· = 'p')) fun _ =>
  rxBind (rxCh (· = 'e')) fun _ =>
  rxBind (rxCh (· = 'r')) fun _ =>
  rxBind (rxPlusCh isPySpace) fun _ =>
  rxPlusCh isWordCh

/-- `/(\w+)`. -/
def rxSlashPat : Rx (List Char) :=
  rxBind (rxCh (· = '/')) fun _ => rxPlusCh isWordCh

/-- `(\w+)\s*$`. -/
def rxTrailPat : Rx (List Char) :=
  rxBind (rxPlusCh isWordCh) fun w =>
  rxBind rxSpaces fun _ =>
  rxBind rxEnd fun _ => rxPure w

/-- Python `dict.get` over an insertion-ordered literal. -/
def dictGet : List (String × String) → String → Option String
  | [], _ => none
  | (k, v) :: t, u => if u = k then some v else dictGet t u

/-- The `unit_mapping` dict literal of `extract_price_unit`
(src/scraper/utils.py). -/
def utilsUnitTable : List (String × String) :=
  [("pc", "piece"), ("pcs", "piece"), ("piece", "piece"),
   ("kg", "kilogram"), ("kilogram", "kilogram"),
   ("gram", "gram"), ("gm", "gram"),
   ("ton", "ton"), ("tonne", "ton"),
   ("meter", "meter"), ("metre", "meter"), ("m", "meter"),
   ("feet", "feet"), ("foot", "feet"), ("ft", "feet"),
   ("litre", "liter"), ("liter", "liter"), ("l", "liter"),
   ("dozen", "dozen"), ("pair", "pair"), ("set", "set")]

/-- `unit_mapping.get(unit, unit)` on a captured group. -/
def applyUtilsUnitMap (w : List Char) : String :=
  (dictGet utilsUnitTable ⟨w⟩).getD ⟨w⟩

/-- `extract_price_unit` (src/scraper/utils.py lines 65-96): three patterns
tried in order on the lowercased text, first match mapped through
`utilsUnitTable`, unmapped tokens pass through; empty string when no
pattern matches. -/
def extract_price_unit (price_text : String) : String :=
  if price_text = "" then "" else
  let pl := toLowerChars price_text.data
  match (rxSearch rxPerPat pl).head? with
  | some wr => applyUtilsUnitMap wr.1
  | none =>
    match (rxSearch rxSlashPat pl).head? with
    | some wr => applyUtilsUnitMap wr.1
    | none =>
      match (rxSearch rxTrailPat pl).head? with
      | some wr => applyUtilsUnitMap wr.1
      | none => ""

/-- Digit-string value. -/
def natOfDigits (cs : List Char) : Nat :=
  cs.foldl (fun n c => 10 * n + (c.toNat - '0'.toNat)) 0

/-- `str.replace(',', '')`. -/
def stripCommas (cs : List Char) : List Char := cs.filter (· ≠ ',')

/-- Python `float()` on the decimal token shapes produced by the price
patterns (`\d+` optionally followed by `.\d+`), as an exact rational. -/
def pyFloat (cs : List Char) : Rat :=
  let ipart := cs.takeWhile (· ≠ '.')
  match cs.dropWhile (· ≠ '.') with
  | [] => (natOfDigits ipart : Rat)
  | _ :: fr => (natOfDigits ipart : Rat) + (natOfDigits fr : Rat) / (10 ^ fr.length : Rat)

/-- Result dictionary of `clean_price_text`; `min_price`/`max_price` are
`none` when the corresponding keys are absent from the returned dict. -/
structure PriceInfo where
  raw_price : String
  numeric_price : Option Rat
  min_price : Option Rat
  max_price : Option Rat
  currency : String
  unit : String
  is_range : Bool
deriving Repr, DecidableEq

/-- `clean_price_text` (src/scraper/utils.py lines 13-63): empty input
returns defaults; otherwise strip, try the range pattern (average of the
two comma-stripped numbers), else the single-price pattern. -/
def clean_price_text (price_text : String) : PriceInfo :=
  if price_text = "" then
    { raw_price := "", numeric_price := none, min_price := none,
      max_price := none, currency := "INR", unit := "", is_range := false }
  else
    let pt := pyStrip price_text.data
    match (rxSearch rxRangePat pt).head? with
    | some gr =>
      let minP := pyFloat (stripCommas gr.1.1)
      let maxP := pyFloat (stripCommas gr.1.2)
      { raw_price := ⟨pt⟩, numeric_price := some ((minP + maxP) / 2),
        min_price := some minP, max_price := some maxP,
        currency := "INR", unit := extract_price_unit ⟨pt⟩, is_range := true }
    | none =>
      let np := ((rxSearch rxSinglePat pt).head?).map fun gr => pyFloat (stripCommas gr.1)
      { raw_price := ⟨pt⟩, numeric_price := np, min_price := none,
        max_price := none, currency := "INR",
        unit := extract_price_unit ⟨pt⟩, is_range := false }

/-! Reasoning about the most preferred outcome of a matcher run. -/

/-- `HeadIs l x`: the first (most preferred) outcome of `l` is `x`. -/
def HeadIs (l : List (α × List Char)) (x : α × List Char) : Prop :=
  ∃ t, l = x :: t

/-- `HeadNot pred r`: `r` does not begin with a `pred` character. -/
def HeadNot (pred : Char → Bool) : List Char → Prop
  | [] => True
  | c :: _ => pred c = false

theorem headIs_head? {l : List (α × List Char)} {x} (h : HeadIs l x) :
    l.head? = some x := by
  obtain ⟨t, ht⟩ := h; subst ht; rfl

theorem headIs_append_left {l l' : List (α × List Char)} {x}
    (h : HeadIs l x) : HeadIs (l ++ l') x := by
  obtain ⟨t, ht⟩ := h; exact ⟨t ++ l', by simp [ht]⟩

theorem headIs_pure (a : α) (s : List Char) : HeadIs (rxPure a s) (a, s) :=
  ⟨[], rfl⟩

theorem headIs_bind {p : Rx α} {f : α → Rx β} {s : List Char} {a r x}
    (hp : HeadIs (p s) (a, r)) (hf : HeadIs (f a r) x) :
    HeadIs (rxBind p f s) x := by
  obtain ⟨t, ht⟩ := hp
  obtain ⟨u, hu⟩ := hf
  exact ⟨u ++ t.flatMap fun ar => f ar.1 ar.2, by
    simp [rxBind, ht, List.flatMap_cons, hu]⟩

theorem headIs_ch {pred : Char → Bool} {c : Char} {t : List Char}
    (h : pred c = true) : HeadIs (rxCh pred (c :: t)) (c, t) :=
  ⟨[], by simp [rxCh, h]⟩

theorem headNot_cons {pred : Char → Bool} {c : Char} {t : List Char}
    (h : HeadNot pred (c :: t)) : pred c = false := h

theorem rxCh_eq_nil {pred : Char → Bool} {r : List Char}
    (h : HeadNot pred r) : rxCh pred r = [] := by
  cases r with
  | nil => rfl
  | cons c t => simp [rxCh, headNot_cons h]

theorem headIs_opt_some {p : Rx α} {s : List Char} {a r}
    (h : HeadIs (p s) (a, r)) : HeadIs (rxOpt p s) (some a, r) := by
  obtain ⟨t, ht⟩ := h
  exact ⟨(t.map fun ar => (some ar.1, ar.2)) ++ [(none, s)], by
    simp [rxOpt, ht]⟩

theorem headIs_opt_none {p : Rx α} {s : List Char}
    (h : p s = []) : HeadIs (rxOpt p s) (none, s) :=
  ⟨[], by simp [rxOpt, h]⟩

theorem headIs_starCh {pred : Char → Bool} :
    ∀ {xs rest : List Char}, xs.all pred = true → HeadNot pred rest →
      HeadIs (rxStarCh pred (xs ++ rest)) (xs, rest) := by
  intro xs
  induction xs with
  | nil =>
    intro rest _ hr
    cases rest with
    | nil => exact ⟨[], rfl⟩
    | cons c t => exact ⟨[], by simp [rxStarCh, headNot_cons hr]⟩
  | cons x xs ih =>
    intro rest hall hr
    rw [List.all_cons, Bool.and_eq_true] at hall
    obtain ⟨t, ht⟩ := ih hall.2 hr
    exact ⟨(t.map fun ar => (x :: ar.1, ar.2)) ++ [([], x :: (xs ++ rest))], by
      simp [rxStarCh, hall.1, ht]⟩

theorem headIs_plusCh {pred : Char → Bool} {x : Char} {xs rest : List Char}
    (hx : pred x = true) (hxs : xs.all pred = true) (hr : HeadNot pred rest) :
    HeadIs (rxPlusCh pred ((x :: xs) ++ rest)) (x :: xs, rest) := by
  exact headIs_bind (headIs_ch hx)
    (headIs_bind (headIs_starCh hxs hr) (headIs_pure _ _))

theorem headIs_search {p : Rx α} {s : List Char} {x}
    (h : HeadIs (p s) x) : HeadIs (rxSearch p s) x := by
  cases s with
  | nil => exact h
  | cons c t => exact headIs_append_left h

/-! Structured numeric tokens for the price patterns. -/

/-- Rendered thousands groups `,ddd,ddd…`. -/
def renderGrps (gps : List (List Char)) : List Char :=
  gps.flatMap fun g => ',' :: g

/-- Rendered optional fraction `.dd`. -/
def fracRender : Option (List Char) → List Char
  | none => []
  | some f => '.' :: f

/-- The text a well-formed numeric token occupies (without currency). -/
def numBody (ip : List Char) (gps : List (List Char))
    (fr : Option (List Char)) : List Char :=
  ip ++ renderGrps gps ++ fracRender fr

/-- Characters that may legally follow a maximal numeric token match. -/
def NumBoundary : List Char → Prop
  | [] => True
  | c :: _ => isDigitCh c = false ∧ c ≠ ',' ∧ c ≠ '.'

theorem numBoundary_headNot_digit {r : List Char} (h : NumBoundary r) :
    HeadNot isDigitCh r := by
  cases r with
  | nil => trivial
  | cons c t => exact h.1

/-- Characters at which the thousands-group star must stop iterating. -/
def GrpBoundary : List Char → Prop
  | [] => True
  | c :: _ => isDigitCh c = false ∧ c ≠ ','

theorem numBoundary_grp {r : List Char} (h : NumBoundary r) : GrpBoundary r := by
  cases r with
  | nil => trivial
  | cons c t => exact ⟨h.1, h.2.1⟩

theorem grpBoundary_headNot_digit {r : List Char} (h : GrpBoundary r) :
    HeadNot isDigitCh r := by
  cases r with
  | nil => trivial
  | cons c t => exact h.1

theorem rxCommaGrp_eq_nil {r : List Char} (h : GrpBoundary r) :
    rxCommaGrp r = [] := by
  cases r with
  | nil => rfl
  | cons c t =>
    have : rxCh (· = ',') (c :: t) = [] := rxCh_eq_nil (by
      simpa [HeadNot] using h.2)
    simp [rxCommaGrp, rxBind, this]

theorem headIs_starGrp :
    ∀ (gps : List (List Char)) (rest : List Char) (n : Nat),
      (∀ g ∈ gps, g ≠ [] ∧ g.all isDigitCh = true) → GrpBoundary rest →
      (renderGrps gps).length < n →
      HeadIs (rxStar rxCommaGrp n (renderGrps gps ++ rest))
        (gps.map fun g => ',' :: g, rest) := by
  intro gps
  induction gps with
  | nil =>
    intro rest n _ hr hn
    obtain ⟨m, rfl⟩ : ∃ m, n = m + 1 := ⟨n - 1, by omega⟩
    refine ⟨[], ?_⟩
    have hfail : rxCommaGrp rest = [] := rxCommaGrp_eq_nil hr
    simp [rxStar, rxBind, renderGrps, hfail]
  | cons g gps ih =>
    intro rest n hw hr hn
    obtain ⟨m, rfl⟩ : ∃ m, n = m + 1 := ⟨n - 1, by omega⟩
    obtain ⟨hgne, hgall⟩ := hw g (by simp)
    have hlen : (renderGrps gps).length < m := by
      simp [renderGrps] at hn ⊢; omega
    have hdig : HeadNot isDigitCh (renderGrps gps ++ rest) := by
      cases gps with
      | nil => exact grpBoundary_headNot_digit (by simpa [renderGrps] using hr)
      | cons g2 gps2 => simp [renderGrps, HeadNot, isDigitCh]
    have hplus : HeadIs (rxPlusCh isDigitCh (g ++ (renderGrps gps ++ rest)))
        (g, renderGrps gps ++ rest) := by
      obtain ⟨gh, gt, rfl⟩ : ∃ gh gt, g = gh :: gt := by
        cases g with
        | nil => exact absurd rfl hgne
        | cons a b => exact ⟨a, b, rfl⟩
      rw [List.all_cons, Bool.and_eq_true] at hgall
      exact headIs_plusCh hgall.1 hgall.2 hdig
    have hcomma : HeadIs (rxCommaGrp ((',' :: g) ++ (renderGrps gps ++ rest)))
        (',' :: g, renderGrps gps ++ rest) := by
      refine headIs_bind (headIs_ch (by simp)) ?_
      exact headIs_bind hplus (headIs_pure _ _)
    have hrest := ih rest m (fun g' hg' => hw g' (List.mem_cons_of_mem _ hg')) hr hlen
    have hbranch : HeadIs
        ((rxBind rxCommaGrp fun a =>
            rxBind (rxStar rxCommaGrp m) fun as => rxPure (a :: as))
          ((',' :: g) ++ (renderGrps gps ++ rest)))
        ((',' :: g) :: gps.map (fun g' => ',' :: g'), rest) :=
      headIs_bind hcomma (headIs_bind hrest (headIs_pure _ _))
    have hs : renderGrps (g :: gps) ++ rest
        = (',' :: g) ++ (renderGrps gps ++ rest) := by simp [renderGrps]
    rw [hs]
    show HeadIs (_ ++ _) _
    exact headIs_append_left hbranch

theorem rxFrac_eq_nil {r : List Char} (h : NumBoundary r) : rxFrac r = [] := by
  cases r with
  | nil => simp [rxFrac, rxBind, rxCh]
  | cons c t =>
    have : rxCh (· = '.') (c :: t) = [] := rxCh_eq_nil (by
      simpa [HeadNot] using h.2.2)
    simp [rxFrac, rxBind, this]

theorem headIs_num {ip : List Char} {gps : List (List Char)}
    {fr : Option (List Char)} {rest : List Char}
    (hip : ip ≠ []) (hipd : ip.all isDigitCh = true)
    (hg : ∀ g ∈ gps, g ≠ [] ∧ g.all isDigitCh = true)
    (hf : ∀ f, fr = some f → f ≠ [] ∧ f.all isDigitCh = true)
    (hr : NumBoundary rest) :
    HeadIs (rxNum (numBody ip gps fr ++ rest)) (numBody ip gps fr, rest) := by
  have hassoc : numBody ip gps fr ++ rest
      = ip ++ (renderGrps gps ++ (fracRender fr ++ rest)) := by
    simp [numBody]
  have hd1 : HeadNot isDigitCh (renderGrps gps ++ (fracRender fr ++ rest)) := by
    cases gps with
    | cons g2 gps2 => simp [renderGrps, HeadNot, isDigitCh]
    | nil =>
      cases fr with
      | some f => simp [renderGrps, fracRender, HeadNot, isDigitCh]
      | none => simpa [renderGrps, fracRender] using numBoundary_headNot_digit hr
  have hplus : HeadIs (rxPlusCh isDigitCh
      (ip ++ (renderGrps gps ++ (fracRender fr ++ rest))))
      (ip, renderGrps gps ++ (fracRender fr ++ rest)) := by
    obtain ⟨ih0, it0, rfl⟩ : ∃ x xs, ip = x :: xs := by
      cases ip with
      | nil => exact absurd rfl hip
      | cons a b => exact ⟨a, b, rfl⟩
    rw [List.all_cons, Bool.and_eq_true] at hipd
    exact headIs_plusCh hipd.1 hipd.2 hd1
  have hgb : GrpBoundary (fracRender fr ++ rest) := by
    cases fr with
    | some f => simp [fracRender, GrpBoundary, isDigitCh]
    | none => simpa [fracRender] using numBoundary_grp hr
  have hstar : HeadIs (rxStarF rxCommaGrp (renderGrps gps ++ (fracRender fr ++ rest)))
      (gps.map fun g => ',' :: g, fracRender fr ++ rest) := by
    unfold rxStarF
    refine headIs_starGrp gps _ _ hg hgb ?_
    simp; omega
  have hopt : HeadIs (rxOpt rxFrac (fracRender fr ++ rest))
      ((fr.map fun f => '.' :: f), rest) := by
    cases fr with
    | none =>
      simpa [fracRender] using headIs_opt_none (rxFrac_eq_nil hr)
    | some f =>
      obtain ⟨hfne, hfd⟩ := hf f rfl
      obtain ⟨f0, ft0, rfl⟩ : ∃ x xs, f = x :: xs := by
        cases f with
        | nil => exact absurd rfl hfne
        | cons a b => exact ⟨a, b, rfl⟩
      rw [List.all_cons, Bool.and_eq_true] at hfd
      refine headIs_opt_some ?_
      show HeadIs (rxFrac (('.' :: (f0 :: ft0)) ++ rest)) _
      refine headIs_bind (headIs_ch (by simp)) ?_
      exact headIs_bind (headIs_plusCh hfd.1 hfd.2 (numBoundary_headNot_digit hr))
        (headIs_pure _ _)
  rw [hassoc]
  show HeadIs (rxNum _) _
  unfold rxNum
  refine headIs_bind hplus (headIs_bind hstar (headIs_bind hopt ?_))
  have hv : ip ++ (gps.map fun g => ',' :: g).flatten
      ++ ((fr.map fun f => '.' :: f).getD []) = numBody ip gps fr := by
    cases fr <;> simp [numBody, renderGrps, fracRender, List.flatMap_def]
  exact ⟨[], by simp [rxPure, hv]⟩

/-! Character facts used to discharge boundary conditions. -/

theorem digit_cases {c : Char} (h : isDigitCh c = true) :
    c = '0' ∨ c = '1' ∨ c = '2' ∨ c = '3' ∨ c = '4' ∨
    c = '5' ∨ c = '6' ∨ c = '7' ∨ c = '8' ∨ c = '9' := by
  simpa [isDigitCh, or_assoc] using h

theorem digit_not_space {c : Char} (h : isDigitCh c = true) :
    isPySpace c = false := by
  rcases digit_cases h with rfl|rfl|rfl|rfl|rfl|rfl|rfl|rfl|rfl|rfl <;> decide

theorem digit_ne_rupee {c : Char} (h : isDigitCh c = true) :
    (c = '₹') = False := by
  rcases digit_cases h with rfl|rfl|rfl|rfl|rfl|rfl|rfl|rfl|rfl|rfl <;> decide

theorem pySpace_cases {c : Char} (h : isPySpace c = true) :
    c = ' ' ∨ c = '\t' ∨ c = '\n' ∨ c = '\r' ∨ c = '\x0b' ∨ c = '\x0c' := by
  simpa [isPySpace, or_assoc] using h

theorem pySpace_boundary {c : Char} (h : isPySpace c = true) :
    isDigitCh c = false ∧ c ≠ ',' ∧ c ≠ '.' := by
  rcases pySpace_cases h with rfl|rfl|rfl|rfl|rfl|rfl <;> decide

/-! Structured numeric tokens with optional currency sign. -/

/-- A well-formed numeric price token: optional `₹`, leading digit run,
thousands groups, optional fraction. -/
structure NumTok where
  cur : Bool
  ip : List Char
  gps : List (List Char)
  fr : Option (List Char)

/-- Well-formedness: every digit run non-empty and made of digits. -/
def NumTok.wf (t : NumTok) : Bool :=
  (!t.ip.isEmpty) && t.ip.all isDigitCh &&
  t.gps.all (fun g => (!g.isEmpty) && g.all isDigitCh) &&
  (match t.fr with
   | none => true
   | some f => (!f.isEmpty) && f.all isDigitCh)

/-- The token text without the currency sign. -/
def NumTok.body (t : NumTok) : List Char := numBody t.ip t.gps t.fr

/-- The full token text. -/
def NumTok.render (t : NumTok) : List Char :=
  (if t.cur then ['₹'] else []) ++ t.body

/-- The numeric value denoted by the token
(`float` of the comma-stripped text). -/
def NumTok.val (t : NumTok) : Rat := pyFloat (stripCommas t.body)

theorem NumTok.wf_ip_ne {t : NumTok} (h : t.wf = true) : t.ip ≠ [] := by
  unfold NumTok.wf at h
  simp only [Bool.and_eq_true, Bool.not_eq_true'] at h
  exact fun e => by simp [e] at h

theorem NumTok.wf_ip_all {t : NumTok} (h : t.wf = true) :
    t.ip.all isDigitCh = true := by
  unfold NumTok.wf at h
  simp only [Bool.and_eq_true] at h
  exact h.1.1.2

theorem NumTok.wf_gps {t : NumTok} (h : t.wf = true) :
    ∀ g ∈ t.gps, g ≠ [] ∧ g.all isDigitCh = true := by
  unfold NumTok.wf at h
  simp only [Bool.and_eq_true] at h
  intro g hg
  have := List.all_eq_true.mp h.1.2 g hg
  simp only [Bool.and_eq_true, Bool.not_eq_true'] at this
  exact ⟨by simpa [List.isEmpty_iff] using this.1, this.2⟩

theorem NumTok.wf_fr {t : NumTok} (h : t.wf = true) :
    ∀ f, t.fr = some f → f ≠ [] ∧ f.all isDigitCh = true := by
  unfold NumTok.wf at h
  simp only [Bool.and_eq_true] at h
  intro f hf
  have h2 := h.2
  rw [hf] at h2
  simp only [Bool.and_eq_true, Bool.not_eq_true'] at h2
  exact ⟨by simpa [List.isEmpty_iff] using h2.1, h2.2⟩

theorem NumTok.body_cons {t : NumTok} (h : t.wf = true) :
    ∃ c cs, t.body = c :: cs ∧ isDigitCh c = true := by
  obtain ⟨c, cs, hc⟩ : ∃ c cs, t.ip = c :: cs := by
    cases hip : t.ip with
    | nil => exact absurd hip (NumTok.wf_ip_ne h)
    | cons a b => exact ⟨a, b, rfl⟩
  refine ⟨c, cs ++ renderGrps t.gps ++ fracRender t.fr, ?_, ?_⟩
  · simp [NumTok.body, numBody, hc]
  · have := NumTok.wf_ip_all h
    rw [hc, List.all_cons, Bool.and_eq_true] at this
    exact this.1

theorem NumTok.body_headNot_space {t : NumTok} (h : t.wf = true)
    (rest : List Char) : HeadNot isPySpace (t.body ++ rest) := by
  obtain ⟨c, cs, hc, hd⟩ := NumTok.body_cons h
  rw [hc]
  exact digit_not_space hd

theorem NumTok.render_headNot_space {t : NumTok} (h : t.wf = true)
    (rest : List Char) : HeadNot isPySpace (t.render ++ rest) := by
  unfold NumTok.render
  cases hcur : t.cur with
  | true => exact (by decide : isPySpace '₹' = false)
  | false => simpa using NumTok.body_headNot_space h rest

theorem headIs_rupee {t : NumTok} (h : t.wf = true) (rest : List Char) :
    HeadIs (rxRupee (t.render ++ rest))
      ((if t.cur then some '₹' else none), t.body ++ rest) := by
  unfold NumTok.render
  cases t.cur with
  | true =>
    simp only [if_true]
    exact headIs_opt_some (headIs_ch (by decide))
  | false =>
    simp only [Bool.false_eq_true, if_false, List.nil_append]
    refine headIs_opt_none (rxCh_eq_nil ?_)
    obtain ⟨c, cs, hc, hd⟩ := NumTok.body_cons h
    rw [hc]
    show decide (c = '₹') = false
    simp [digit_ne_rupee hd]

theorem headIs_spaces_body {t : NumTok} (h : t.wf = true) (rest : List Char) :
    HeadIs (rxSpaces (t.body ++ rest)) ([], t.body ++ rest) := by
  exact @headIs_starCh isPySpace [] (t.body ++ rest)
    rfl (NumTok.body_headNot_space h rest)

theorem headIs_num_tok {t : NumTok} (h : t.wf = true) {rest : List Char}
    (hr : NumBoundary rest) :
    HeadIs (rxNum (t.body ++ rest)) (t.body, rest) :=
  headIs_num (NumTok.wf_ip_ne h) (NumTok.wf_ip_all h) (NumTok.wf_gps h)
    (NumTok.wf_fr h) hr

theorem headIs_range {a b : NumTok} {sp1 sp2 : List Char}
    (ha : a.wf = true) (hb : b.wf = true)
    (h1 : sp1.all isPySpace = true) (h2 : sp2.all isPySpace = true) :
    HeadIs (rxRangePat (a.render ++ (sp1 ++ ('-' :: (sp2 ++ b.render)))))
      ((a.body, b.body), []) := by
  have hb1 : NumBoundary (sp1 ++ ('-' :: (sp2 ++ b.render))) := by
    cases sp1 with
    | nil => exact ⟨by decide, by decide, by decide⟩
    | cons c cs =>
      rw [List.all_cons, Bool.and_eq_true] at h1
      exact pySpace_boundary h1.1
  have hsp1 : HeadIs (rxSpaces (sp1 ++ ('-' :: (sp2 ++ b.render))))
      (sp1, '-' :: (sp2 ++ b.render)) :=
    headIs_starCh h1 (show isPySpace '-' = false by decide)
  have hsep : HeadIs (rxCh isRangeSep ('-' :: (sp2 ++ b.render)))
      ('-', sp2 ++ b.render) :=
    headIs_ch (show isRangeSep '-' = true by decide)
  have hrnsp : HeadNot isPySpace b.render := by
    simpa using NumTok.render_headNot_space hb []
  have hsp2 : HeadIs (rxSpaces (sp2 ++ b.render)) (sp2, b.render) :=
    headIs_starCh h2 hrnsp
  have hrup_b : HeadIs (rxRupee b.render)
      ((if b.cur then some '₹' else none), b.body) := by
    simpa using headIs_rupee hb []
  have hspb : HeadIs (rxSpaces b.body) ([], b.body) := by
    simpa using headIs_spaces_body hb []
  have hnum_b : HeadIs (rxNum b.body) (b.body, []) := by
    simpa using @headIs_num_tok b hb [] trivial
  have hnum_a : HeadIs (rxNum (a.body ++ (sp1 ++ ('-' :: (sp2 ++ b.render)))))
      (a.body, sp1 ++ ('-' :: (sp2 ++ b.render))) :=
    headIs_num_tok ha hb1
  have hrup_a := headIs_rupee ha (sp1 ++ ('-' :: (sp2 ++ b.render)))
  have hspa := headIs_spaces_body ha (sp1 ++ ('-' :: (sp2 ++ b.render)))
  unfold rxRangePat
  exact headIs_bind hrup_a (headIs_bind hspa (headIs_bind hnum_a
    (headIs_bind hsp1 (headIs_bind hsep (headIs_bind hsp2
    (headIs_bind hrup_b (headIs_bind hspb (headIs_bind hnum_b
    (headIs_pure _ _)))))))))

/-! `str.strip` is the identity on the token strings at issue. -/

theorem dropWhile_headNot {p : Char → Bool} {l : List Char}
    (h : HeadNot p l) : l.dropWhile p = l := by
  cases l with
  | nil => rfl
  | cons c t => simp [List.dropWhile_cons, headNot_cons h]

theorem pyStrip_eq_self {cs : List Char}
    (h1 : HeadNot isPySpace cs) (h2 : HeadNot isPySpace cs.reverse) :
    pyStrip cs = cs := by
  unfold pyStrip
  rw [dropWhile_headNot h1, dropWhile_headNot h2, List.reverse_reverse]

theorem headNot_reverse_of_getLast {p : Char → Bool} {l : List Char} {c : Char}
    (h : l.getLast? = some c) (hc : p c = false) : HeadNot p l.reverse := by
  cases hr : l.reverse with
  | nil => trivial
  | cons d t =>
    have hd : l.reverse.head? = some d := by rw [hr]; rfl
    rw [List.head?_reverse, h] at hd
    cases hd
    exact hc

theorem all_getLast_digit {l : List Char} (hne : l ≠ [])
    (hall : l.all isDigitCh = true) :
    ∃ c, l.getLast? = some c ∧ isDigitCh c = true := by
  induction l with
  | nil => exact absurd rfl hne
  | cons a l ih =>
    cases l with
    | nil =>
      rw [List.all_cons, Bool.and_eq_true] at hall
      exact ⟨a, rfl, hall.1⟩
    | cons b t =>
      rw [List.all_cons, Bool.and_eq_true] at hall
      obtain ⟨c, h1, h2⟩ := ih (by simp) hall.2
      exact ⟨c, by rw [List.getLast?_cons_cons]; exact h1, h2⟩

theorem getLast?_cons_ne {c : Char} {l : List Char} (h : l ≠ []) :
    (c :: l).getLast? = l.getLast? := by
  cases l with
  | nil => exact absurd rfl h
  | cons b t => exact List.getLast?_cons_cons

theorem renderGrps_ne_nil {gps : List (List Char)} (h : gps ≠ []) :
    renderGrps gps ≠ [] := by
  cases gps with
  | nil => exact absurd rfl h
  | cons g gs => simp [renderGrps]

theorem renderGrps_getLast_digit :
    ∀ {gps : List (List Char)}, gps ≠ [] →
      (∀ g ∈ gps, g ≠ [] ∧ g.all isDigitCh = true) →
      ∃ c, (renderGrps gps).getLast? = some c ∧ isDigitCh c = true := by
  intro gps
  induction gps with
  | nil => intro h; exact absurd rfl h
  | cons g gs ih =>
    intro _ hw
    cases gs with
    | nil =>
      obtain ⟨hg1, hg2⟩ := hw g (by simp)
      obtain ⟨c, h1, h2⟩ := all_getLast_digit hg1 hg2
      refine ⟨c, ?_, h2⟩
      have : renderGrps [g] = ',' :: g := by simp [renderGrps]
      rw [this, getLast?_cons_ne hg1]
      exact h1
    | cons g2 gs2 =>
      obtain ⟨c, h1, h2⟩ := ih (by simp) (fun g' hg' => hw g' (List.mem_cons_of_mem _ hg'))
      refine ⟨c, ?_, h2⟩
      have : renderGrps (g :: g2 :: gs2) = (',' :: g) ++ renderGrps (g2 :: gs2) := by
        simp [renderGrps]
      rw [this, List.getLast?_append_of_ne_nil _ (renderGrps_ne_nil (by simp))]
      exact h1

theorem NumTok.body_getLast_digit {t : NumTok} (h : t.wf = true) :
    ∃ c, t.body.getLast? = some c ∧ isDigitCh c = true := by
  unfold NumTok.body numBody
  cases hfr : t.fr with
  | some f =>
    obtain ⟨hfne, hfd⟩ := NumTok.wf_fr h f hfr
    obtain ⟨c, h1, h2⟩ := all_getLast_digit hfne hfd
    refine ⟨c, ?_, h2⟩
    rw [@List.getLast?_append_of_ne_nil _ _ (fracRender (some f)) (by simp [fracRender])]
    show (('.' :: f).getLast? = some c)
    rw [getLast?_cons_ne hfne]
    exact h1
  | none =>
    cases hg : t.gps with
    | nil =>
      simp only [renderGrps, fracRender, List.flatMap_nil, List.append_nil]
      exact all_getLast_digit (NumTok.wf_ip_ne h) (NumTok.wf_ip_all h)
    | cons g gs =>
      obtain ⟨c, h1, h2⟩ := @renderGrps_getLast_digit (g :: gs) (by simp)
        (by rw [← hg]; exact NumTok.wf_gps h)
      refine ⟨c, ?_, h2⟩
      simp only [fracRender, List.append_nil]
      rw [List.getLast?_append_of_ne_nil _ (renderGrps_ne_nil (by simp))]
      exact h1

theorem NumTok.body_ne_nil {t : NumTok} (h : t.wf = true) : t.body ≠ [] := by
  obtain ⟨c, cs, hc, _⟩ := NumTok.body_cons h
  simp [hc]

theorem NumTok.render_ne_nil {t : NumTok} (h : t.wf = true) : t.render ≠ [] := by
  unfold NumTok.render
  intro e
  rcases List.append_eq_nil.mp e with ⟨_, h2⟩
  exact NumTok.body_ne_nil h h2

theorem NumTok.render_getLast_digit {t : NumTok} (h : t.wf = true) :
    ∃ c, t.render.getLast? = some c ∧ isDigitCh c = true := by
  obtain ⟨c, h1, h2⟩ := NumTok.body_getLast_digit h
  refine ⟨c, ?_, h2⟩
  unfold NumTok.render
  rw [List.getLast?_append_of_ne_nil _ (NumTok.body_ne_nil h)]
  exact h1

/-- C1 (amended): for every well-formed pair of numeric tokens (optional
currency sign, thousands separators, optional decimals) joined by a
single dash with surrounding whitespace, `clean_price_text` returns
`is_range = true`, `min_price = a`, `max_price = b` (thousands separators
stripped) and `numeric_price = (a+b)/2`.  (The two-letter word "to" is
NOT a range separator — see the counterexample — because `[-to]` in the
source is a character class.) -/
theorem claim_C1 (a b : NumTok) (sp1 sp2 : List Char) (s0 : String)
    (ha : a.wf = true) (hb : b.wf = true)
    (h1 : sp1.all isPySpace = true) (h2 : sp2.all isPySpace = true)
    (hs : s0.data = a.render ++ (sp1 ++ ('-' :: (sp2 ++ b.render)))) :
    (clean_price_text s0).is_range = true ∧
    (clean_price_text s0).min_price = some a.val ∧
    (clean_price_text s0).max_price = some b.val ∧
    (clean_price_text s0).numeric_price = some ((a.val + b.val) / 2) := by
  have hne : s0 ≠ "" := by
    intro e
    rw [e] at hs
    exact NumTok.render_ne_nil ha (List.append_eq_nil.mp hs.symm).1
  have hlastS : ∃ c, (a.render ++ (sp1 ++ ('-' :: (sp2 ++ b.render)))).getLast?
      = some c ∧ isDigitCh c = true := by
    obtain ⟨c, hc1, hc2⟩ := NumTok.render_getLast_digit hb
    refine ⟨c, ?_, hc2⟩
    rw [List.getLast?_append_of_ne_nil _ (by
      intro e; exact absurd (List.append_eq_nil.mp e).2 (by simp))]
    rw [List.getLast?_append_cons]
    rw [getLast?_cons_ne (by
      intro e; exact NumTok.render_ne_nil hb (List.append_eq_nil.mp e).2)]
    rw [List.getLast?_append_of_ne_nil _ (NumTok.render_ne_nil hb)]
    exact hc1
  have hstrip : pyStrip (a.render ++ (sp1 ++ ('-' :: (sp2 ++ b.render))))
      = a.render ++ (sp1 ++ ('-' :: (sp2 ++ b.render))) := by
    obtain ⟨c, hc1, hc2⟩ := hlastS
    exact pyStrip_eq_self (NumTok.render_headNot_space ha _)
      (headNot_reverse_of_getLast hc1 (digit_not_space hc2))
  unfold clean_price_text
  rw [if_neg hne, hs, hstrip]
  simp only [headIs_head? (headIs_search (headIs_range ha hb h1 h2))]
  simp [NumTok.val]

/-- Witness for C1: `"₹1,200 - 500"` parses as the range 1200–500 with
mean 850. -/
theorem claim_C1_witness :
    (clean_price_text "₹1,200 - 500").is_range = true ∧
    (clean_price_text "₹1,200 - 500").min_price = some 1200 ∧
    (clean_price_text "₹1,200 - 500").max_price = some 500 ∧
    (clean_price_text "₹1,200 - 500").numeric_price = some 850 := by
  have h := claim_C1 ⟨true, ['1'], [['2', '0', '0']], none⟩
    ⟨false, ['5', '0', '0'], [], none⟩ [' '] [' '] "₹1,200 - 500"
    (by decide) (by decide) (by decide) (by decide) (by decide)
  refine ⟨h.1, ?_, ?_, ?_⟩
  · rw [h.2.1]; decide
  · rw [h.2.2.1]; decide
  · rw [h.2.2.2]; decide

/-- Counterexample for C1 as stated: `"100 to 500"` (two numbers joined by
the WORD "to") is not recognised as a range — `[-to]` is a character
class — and falls through to single-price parsing. -/
theorem claim_C1_counterexample :
    (clean_price_text "100 to 500").is_range = false ∧
    (clean_price_text "100 to 500").min_price = none ∧
    (clean_price_text "100 to 500").numeric_price = some 100 := by
  decide

/-- C8: `parsePrice("")` returns every field absent or at its default
(no numeric value, no range bounds, default currency, empty unit) and,
being a total function, never raises. -/
theorem claim_C8 : clean_price_text "" =
    { raw_price := "", numeric_price := none, min_price := none,
      max_price := none, currency := "INR", unit := "", is_range := false } :=
  rfl

/-! C10: digit tokens are captured by the trailing bare-word unit pattern. -/

theorem digit_lower {c : Char} (h : isDigitCh c = true) : pyLower c = c := by
  rcases digit_cases h with rfl|rfl|rfl|rfl|rfl|rfl|rfl|rfl|rfl|rfl <;> decide

theorem digit_word {c : Char} (h : isDigitCh c = true) : isWordCh c = true := by
  simp [isWordCh, h]

theorem map_pyLower_digits {ds : List Char} (h : ds.all isDigitCh = true) :
    ds.map pyLower = ds := by
  induction ds with
  | nil => rfl
  | cons c t ih =>
    rw [List.all_cons, Bool.and_eq_true] at h
    simp [digit_lower h.1, ih h.2]

theorem headIs_ne_nil {l : List (α × List Char)} {x} (h : HeadIs l x) :
    l ≠ [] := by
  obtain ⟨t, ht⟩ := h; simp [ht]

theorem rxSearch_bindCh_nil {pred : Char → Bool} {f : Char → Rx α} :
    ∀ {s : List Char}, (∀ c ∈ s, pred c = false) →
      rxSearch (rxBind (rxCh pred) f) s = [] := by
  intro s
  induction s with
  | nil => intro _; rfl
  | cons c t ih =>
    intro h
    have hc : pred c = false := h c (by simp)
    have : rxBind (rxCh pred) f (c :: t) = [] := by
      simp [rxBind, rxCh, hc]
    simp only [rxSearch, this, List.nil_append]
    exact ih fun d hd => h d (List.mem_cons_of_mem _ hd)

theorem rxSearch_ne_nil_of_suffix {p : Rx α} :
    ∀ {s s' : List Char}, s' <:+ s → p s' ≠ [] → rxSearch p s ≠ [] := by
  intro s
  induction s with
  | nil =>
    intro s' hsuf hp
    rw [List.suffix_nil.mp hsuf] at hp
    exact hp
  | cons c t ih =>
    intro s' hsuf hp
    rcases List.suffix_cons_iff.mp hsuf with h | h
    · subst h
      simp only [rxSearch]
      intro e
      exact hp (List.append_eq_nil.mp e).1
    · simp only [rxSearch]
      intro e
      exact ih h hp (List.append_eq_nil.mp e).2

theorem mem_of_head? {l : List α} {x : α} (h : l.head? = some x) : x ∈ l := by
  cases l with
  | nil => cases h
  | cons a t => cases h; exact List.mem_cons_self _ _

theorem mem_rxSearch {p : Rx α} :
    ∀ {s : List Char} {x}, x ∈ rxSearch p s → ∃ s', x ∈ p s' := by
  intro s
  induction s with
  | nil => intro x hx; exact ⟨[], hx⟩
  | cons c t ih =>
    intro x hx
    rcases List.mem_append.mp hx with h | h
    · exact ⟨c :: t, h⟩
    · exact ih h

theorem mem_rxBind {p : Rx α} {f : α → Rx β} {s : List Char} {x}
    (h : x ∈ rxBind p f s) : ∃ ar ∈ p s, x ∈ f ar.1 ar.2 := by
  simpa [rxBind] using List.mem_flatMap.mp h

theorem plusCh_mem_ne_nil {pred : Char → Bool} {s : List Char} {w : List Char}
    {r : List Char} (h : (w, r) ∈ rxPlusCh pred s) : w ≠ [] := by
  obtain ⟨ar, _, h2⟩ := mem_rxBind h
  obtain ⟨ar2, _, h4⟩ := mem_rxBind h2
  simp only [rxPure, List.mem_singleton] at h4
  cases h4
  simp

theorem perPat_capture_ne_nil {s w r} (h : (w, r) ∈ rxPerPat s) : w ≠ [] := by
  obtain ⟨a1, _, h1⟩ := mem_rxBind h
  obtain ⟨a2, _, h2⟩ := mem_rxBind h1
  obtain ⟨a3, _, h3⟩ := mem_rxBind h2
  obtain ⟨a4, _, h4⟩ := mem_rxBind h3
  exact plusCh_mem_ne_nil h4

theorem slashPat_capture_ne_nil {s w r} (h : (w, r) ∈ rxSlashPat s) : w ≠ [] := by
  obtain ⟨a1, _, h1⟩ := mem_rxBind h
  exact plusCh_mem_ne_nil h1

theorem trailPat_capture_ne_nil {s w r} (h : (w, r) ∈ rxTrailPat s) : w ≠ [] := by
  obtain ⟨a1, ha1, h1⟩ := mem_rxBind h
  obtain ⟨a2, _, h2⟩ := mem_rxBind h1
  obtain ⟨a3, _, h3⟩ := mem_rxBind h2
  simp only [rxPure, List.mem_singleton] at h3
  cases h3
  exact plusCh_mem_ne_nil ha1

theorem dictGet_eq_none {tbl : List (String × String)} {u : String}
    (h : ∀ kv ∈ tbl, u ≠ kv.1) : dictGet tbl u = none := by
  induction tbl with
  | nil => rfl
  | cons kv t ih =>
    obtain ⟨k, v⟩ := kv
    rw [dictGet, if_neg (h (k, v) (by simp))]
    exact ih fun kv' h' => h kv' (List.mem_cons_of_mem _ h')

theorem dictGet_mem {tbl : List (String × String)} {u v : String}
    (h : dictGet tbl u = some v) : ∃ k, (k, v) ∈ tbl := by
  induction tbl with
  | nil => cases h
  | cons kv t ih =>
    obtain ⟨k, v'⟩ := kv
    rw [dictGet] at h
    by_cases hu : u = k
    · rw [if_pos hu] at h
      cases h
      exact ⟨k, by simp⟩
    · rw [if_neg hu] at h
      obtain ⟨k', hk'⟩ := ih h
      exact ⟨k', List.mem_cons_of_mem _ hk'⟩

theorem applyUtilsUnitMap_ne_empty {w : List Char} (h : w ≠ []) :
    applyUtilsUnitMap w ≠ "" := by
  unfold applyUtilsUnitMap
  cases hd : dictGet utilsUnitTable ⟨w⟩ with
  | none =>
    simp only [Option.getD_none]
    intro e
    apply h
    have : (⟨w⟩ : String).data = ("" : String).data := by rw [e]
    simpa using this
  | some v =>
    simp only [Option.getD_some]
    obtain ⟨k, hk⟩ := dictGet_mem hd
    have hall : utilsUnitTable.all (fun kv => !(kv.2 = "")) = true := by decide
    have := List.all_eq_true.mp hall (k, v) hk
    simpa using this

theorem map_id_of_mem {l : List Char} {f : Char → Char}
    (h : ∀ c ∈ l, f c = c) : l.map f = l := by
  induction l with
  | nil => rfl
  | cons c t ih =>
    rw [List.map_cons, h c (by simp), ih fun d hd => h d (List.mem_cons_of_mem _ hd)]

theorem all_digit_word {ds : List Char} (h : ds.all isDigitCh = true) :
    ds.all isWordCh = true :=
  List.all_eq_true.mpr fun c hc => digit_word (List.all_eq_true.mp h c hc)

theorem word_lower (c : Char) : isWordCh (pyLower c) = isWordCh c := by
  unfold pyLower
  split <;> rfl

theorem headIs_trail_single {c : Char} (h : isWordCh c = true) :
    HeadIs (rxTrailPat [c]) ([c], []) := by
  have hplus : HeadIs (rxPlusCh isWordCh [c]) ([c], []) := by
    have := @headIs_plusCh isWordCh c [] [] h rfl trivial
    simpa using this
  exact headIs_bind hplus (headIs_bind ⟨[], rfl⟩ (headIs_bind ⟨[], rfl⟩
    (headIs_pure _ _)))

theorem headIs_trail_digits {cur : Bool} {ds : List Char}
    (h1 : ds ≠ []) (h2 : ds.all isDigitCh = true) :
    HeadIs (rxSearch rxTrailPat ((if cur then ['₹'] else []) ++ ds)) (ds, []) := by
  obtain ⟨d, dt, rfl⟩ : ∃ d dt, ds = d :: dt := by
    cases ds with
    | nil => exact absurd rfl h1
    | cons a b => exact ⟨a, b, rfl⟩
  rw [List.all_cons, Bool.and_eq_true] at h2
  have htrail0 : HeadIs (rxTrailPat (d :: dt)) (d :: dt, []) := by
    have hplus : HeadIs (rxPlusCh isWordCh (d :: dt)) (d :: dt, []) := by
      have := @headIs_plusCh isWordCh d dt []
        (digit_word h2.1) (all_digit_word h2.2) trivial
      simpa using this
    exact headIs_bind hplus (headIs_bind ⟨[], rfl⟩ (headIs_bind ⟨[], rfl⟩
      (headIs_pure _ _)))
  cases cur with
  | false => simpa using headIs_search htrail0
  | true =>
    have hfail : rxTrailPat ('₹' :: (d :: dt)) = [] := by
      simp [rxTrailPat, rxPlusCh, rxBind, rxCh,
        (show isWordCh '₹' = false by decide)]
    show HeadIs (rxSearch rxTrailPat ('₹' :: (d :: dt))) (d :: dt, [])
    simp only [rxSearch, hfail, List.nil_append]
    exact headIs_search htrail0

theorem extract_unit_digits {cur : Bool} {ds : List Char} (s1 : String)
    (h1 : ds ≠ []) (h2 : ds.all isDigitCh = true)
    (hs1 : s1.data = (if cur then ['₹'] else []) ++ ds) :
    extract_price_unit s1 = ⟨ds⟩ := by
  have hne : s1 ≠ "" := by
    intro e
    rw [e] at hs1
    exact h1 (List.append_eq_nil.mp hs1.symm).2
  have hmem : ∀ c ∈ (if cur then ['₹'] else []) ++ ds,
      isDigitCh c = true ∨ c = '₹' := by
    intro c hc
    rcases List.mem_append.mp hc with h | h
    · cases cur with
      | true => right; simpa using h
      | false => simp at h
    · exact Or.inl (List.all_eq_true.mp h2 c h)
  have hlow : toLowerChars ((if cur then ['₹'] else []) ++ ds)
      = (if cur then ['₹'] else []) ++ ds := by
    refine map_id_of_mem fun c hc => ?_
    rcases hmem c hc with h | h
    · exact digit_lower h
    · rw [h]; rfl
  have e1 : rxSearch rxPerPat ((if cur then ['₹'] else []) ++ ds) = [] := by
    unfold rxPerPat
    refine rxSearch_bindCh_nil fun c hc => ?_
    rcases hmem c hc with h | h
    · rcases digit_cases h with rfl|rfl|rfl|rfl|rfl|rfl|rfl|rfl|rfl|rfl <;> decide
    · rw [h]; decide
  have e2 : rxSearch rxSlashPat ((if cur then ['₹'] else []) ++ ds) = [] := by
    unfold rxSlashPat
    refine rxSearch_bindCh_nil fun c hc => ?_
    rcases hmem c hc with h | h
    · rcases digit_cases h with rfl|rfl|rfl|rfl|rfl|rfl|rfl|rfl|rfl|rfl <;> decide
    · rw [h]; decide
  have e3 := headIs_head? (@headIs_trail_digits cur ds h1 h2)
  unfold extract_price_unit
  rw [if_neg hne]
  simp only [hs1, hlow, e1, e2, e3, List.head?_nil]
  unfold applyUtilsUnitMap
  have hkeys : ∀ kv ∈ utilsUnitTable, (⟨ds⟩ : String) ≠ kv.1 := by
    intro kv hkv e
    have hall : utilsUnitTable.all (fun kv => !(kv.1.data.all isDigitCh)) = true := by
      decide
    have h3 := List.all_eq_true.mp hall kv hkv
    have h4 : kv.1.data = ds := by
      have := congrArg String.data e
      simpa using this.symm
    rw [h4] at h3
    simp [h2] at h3
  rw [dictGet_eq_none hkeys, Option.getD_none]

theorem clean_price_text_unit {s : String} (h : s ≠ "") :
    (clean_price_text s).unit = extract_price_unit ⟨pyStrip s.data⟩ := by
  unfold clean_price_text
  rw [if_neg h]
  cases hh : (rxSearch rxRangePat (pyStrip s.data)).head? with
  | some gr => simp [hh]
  | none => simp [hh]

theorem extract_unit_ne_empty (s : String) (cs : List Char) (c : Char)
    (hd : s.data = cs ++ [c]) (hw : isWordCh c = true) :
    extract_price_unit s ≠ "" := by
  have hne : s ≠ "" := by
    intro e
    rw [e] at hd
    simp at hd
  unfold extract_price_unit
  rw [if_neg hne]
  cases h1 : (rxSearch rxPerPat (toLowerChars s.data)).head? with
  | some wr =>
    simp only [h1]
    obtain ⟨s', hs'⟩ := mem_rxSearch (mem_of_head? h1)
    exact applyUtilsUnitMap_ne_empty (perPat_capture_ne_nil hs')
  | none =>
    cases h2 : (rxSearch rxSlashPat (toLowerChars s.data)).head? with
    | some wr =>
      simp only [h1, h2]
      obtain ⟨s', hs'⟩ := mem_rxSearch (mem_of_head? h2)
      exact applyUtilsUnitMap_ne_empty (slashPat_capture_ne_nil hs')
    | none =>
      cases h3 : (rxSearch rxTrailPat (toLowerChars s.data)).head? with
      | some wr =>
        simp only [h1, h2, h3]
        obtain ⟨s', hs'⟩ := mem_rxSearch (mem_of_head? h3)
        exact applyUtilsUnitMap_ne_empty (trailPat_capture_ne_nil hs')
      | none =>
        exfalso
        have hsuf : [pyLower c] <:+ toLowerChars s.data := by
          rw [hd]
          unfold toLowerChars
          rw [List.map_append]
          exact ⟨cs.map pyLower, by simp⟩
        have hp : rxTrailPat [pyLower c] ≠ [] :=
          headIs_ne_nil (headIs_trail_single (by rw [word_lower]; exact hw))
        have hne' := rxSearch_ne_nil_of_suffix hsuf hp
        cases he : rxSearch rxTrailPat (toLowerChars s.data) with
        | nil => exact hne' he
        | cons x t =>
          rw [he] at h3
          cases h3

/-- C10: a price text that is just an optional currency sign followed by a
digit string gets that digit string as its `unit` — the trailing bare-word
pattern `(\w+)\s*$` matches digit runs; and the unit is empty only when
the input is empty or its text does not end in a word character (any
input ending in a word character yields a non-empty unit). -/
theorem claim_C10 :
    (∀ (cur : Bool) (ds : List Char) (s0 : String),
        ds ≠ [] → ds.all isDigitCh = true →
        s0.data = (if cur then ['₹'] else []) ++ ds →
        (clean_price_text s0).unit = ⟨ds⟩) ∧
    (∀ (s : String) (cs : List Char) (c : Char),
        s.data = cs ++ [c] → isWordCh c = true →
        extract_price_unit s ≠ "") := by
  constructor
  · intro cur ds s0 h1 h2 hs
    have hne : s0 ≠ "" := by
      intro e
      rw [e] at hs
      exact h1 (List.append_eq_nil.mp hs.symm).2
    have hstrip : pyStrip s0.data = s0.data := by
      rw [hs]
      have hhead : HeadNot isPySpace ((if cur then ['₹'] else []) ++ ds) := by
        cases cur with
        | true => exact (by decide : isPySpace '₹' = false)
        | false =>
          obtain ⟨d, dt, rfl⟩ : ∃ d dt, ds = d :: dt := by
            cases ds with
            | nil => exact absurd rfl h1
            | cons a b => exact ⟨a, b, rfl⟩
          rw [List.all_cons, Bool.and_eq_true] at h2
          exact digit_not_space h2.1
      obtain ⟨cl, hl1, hl2⟩ := all_getLast_digit h1 h2
      refine pyStrip_eq_self hhead (headNot_reverse_of_getLast ?_ (digit_not_space hl2))
      rw [List.getLast?_append_of_ne_nil _ h1]
      exact hl1
    rw [clean_price_text_unit hne]
    refine @extract_unit_digits cur _ _ h1 h2 ?_
    show pyStrip s0.data = _
    rw [hstrip, hs]
  · exact extract_unit_ne_empty

/-- Witness for C10: `"₹1200"` gets unit `"1200"`, and `"abc"`, ending in
a word character, gets a non-empty unit. -/
theorem claim_C10_witness :
    (clean_price_text "₹1200").unit = "1200" ∧
    extract_price_unit "abc" ≠ "" :=
  ⟨claim_C10.1 true ['1', '2', '0', '0'] "₹1200" (by decide) (by decide) (by decide),
   claim_C10.2 "abc" ['a', 'b'] 'c' (by decide) (by decide)⟩

/-! Jaccard text similarity (`calculate_text_similarity`,
src/scraper/utils.py lines 249-271). -/

/-- Helper for `pyWords`: the accumulator holds the current word reversed. -/
def splitAux : List Char → List Char → List (List Char)
  | [], acc => if acc.isEmpty then [] else [acc.reverse]
  | c :: t, acc =>
    if isPySpace c then
      if acc.isEmpty then splitAux t [] else acc.reverse :: splitAux t []
    else splitAux t (c :: acc)

/-- Python `str.split()` with no arguments: split on whitespace runs,
dropping empty tokens. -/
def pyWords (cs : List Char) : List (List Char) := splitAux cs []

/-- `set(text.lower().split())`. -/
def wordFinset (s : String) : Finset String :=
  ((pyWords (toLowerChars s.data)).map fun w => (⟨w⟩ : String)).toFinset

/-- `calculate_text_similarity`: Jaccard similarity of the word sets;
`0.0` when either text is empty or the union is empty (the source's local
variables are inlined). -/
def calculate_text_similarity (text1 text2 : String) : Rat :=
  if text1 = "" ∨ text2 = "" then 0
  else if 0 < (wordFinset text1 ∪ wordFinset text2).card then
    ((wordFinset text1 ∩ wordFinset text2).card : Rat)
      / ((wordFinset text1 ∪ wordFinset text2).card : Rat)
  else 0

theorem wordFinset_empty : wordFinset "" = ∅ := by
  have h : pyWords (toLowerChars ("" : String).data) = [] := rfl
  simp [wordFinset, h]

theorem sim_self_of_words {s : String} (hs : wordFinset s ≠ ∅) :
    calculate_text_similarity s s = 1 := by
  have hne : ¬(s = "" ∨ s = "") := by
    intro h
    apply hs
    rcases h with rfl | rfl <;> exact wordFinset_empty
  unfold calculate_text_similarity
  rw [if_neg hne]
  rw [Finset.inter_self, Finset.union_self]
  have hpos : 0 < (wordFinset s).card :=
    Finset.card_pos.mpr (Finset.nonempty_iff_ne_empty.mpr hs)
  rw [if_pos hpos]
  exact div_self (by positivity)

theorem sim_comm (a b : String) :
    calculate_text_similarity a b = calculate_text_similarity b a := by
  unfold calculate_text_similarity
  by_cases h : a = "" ∨ b = ""
  · rw [if_pos h, if_pos (Or.symm h)]
  · rw [if_neg h, if_neg fun h' => h (Or.symm h')]
    rw [Finset.inter_comm, Finset.union_comm]

theorem sim_nonneg (a b : String) : 0 ≤ calculate_text_similarity a b := by
  unfold calculate_text_similarity
  by_cases h : a = "" ∨ b = ""
  · rw [if_pos h]
  · rw [if_neg h]
    by_cases hu : 0 < (wordFinset a ∪ wordFinset b).card
    · rw [if_pos hu]
      positivity
    · rw [if_neg hu]

theorem sim_le_one (a b : String) : calculate_text_similarity a b ≤ 1 := by
  unfold calculate_text_similarity
  by_cases h : a = "" ∨ b = ""
  · rw [if_pos h]; norm_num
  · rw [if_neg h]
    by_cases hu : 0 < (wordFinset a ∪ wordFinset b).card
    · rw [if_pos hu, div_le_one (by positivity)]
      have hsub : wordFinset a ∩ wordFinset b ⊆ wordFinset a ∪ wordFinset b :=
        subset_trans Finset.inter_subset_left Finset.subset_union_left
      exact_mod_cast Finset.card_le_card hsub
    · rw [if_neg hu]; norm_num

theorem sim_zero (a b : String)
    (h : a = "" ∨ b = "" ∨ wordFinset a ∪ wordFinset b = ∅) :
    calculate_text_similarity a b = 0 := by
  unfold calculate_text_similarity
  rcases h with h | h | h
  · rw [if_pos (Or.inl h)]
  · rw [if_pos (Or.inr h)]
  · by_cases he : a = "" ∨ b = ""
    · rw [if_pos he]
    · rw [if_neg he, h]
      simp

/-- C7 (amended): `jaccardSimilarity(s, s) = 1` for every `s` whose word
set is non-empty (a non-empty but all-whitespace `s` yields `0`, not `1`
— see the counterexample); similarity is symmetric; the result lies in
`[0, 1]`; and it is `0` when either input is empty or the word-set union
is empty. -/
theorem claim_C7 :
    (∀ s : String, wordFinset s ≠ ∅ → calculate_text_similarity s s = 1) ∧
    (∀ a b : String,
      calculate_text_similarity a b = calculate_text_similarity b a) ∧
    (∀ a b : String, 0 ≤ calculate_text_similarity a b ∧
      calculate_text_similarity a b ≤ 1) ∧
    (∀ a b : String, a = "" ∨ b = "" ∨ wordFinset a ∪ wordFinset b = ∅ →
      calculate_text_similarity a b = 0) :=
  ⟨fun _ hs => sim_self_of_words hs, sim_comm,
   fun a b => ⟨sim_nonneg a b, sim_le_one a b⟩, sim_zero⟩

/-- Witness for C7. -/
theorem claim_C7_witness :
    wordFinset "red brick" ≠ ∅ ∧
    calculate_text_similarity "red brick" "red brick" = 1 ∧
    calculate_text_similarity "" "x" = 0 := by
  have hw : pyWords (toLowerChars ("red brick" : String).data)
      = [['r', 'e', 'd'], ['b', 'r', 'i', 'c', 'k']] := rfl
  have hne : wordFinset "red brick" ≠ ∅ := by
    simp [wordFinset, hw]
  exact ⟨hne, claim_C7.1 "red brick" hne, claim_C7.2.2.2 "" "x" (Or.inl rfl)⟩

/-- Counterexample for C7 as stated: `" "` is a non-empty string, yet
`jaccardSimilarity(" ", " ") = 0`, not `1` — its word set is empty. -/
theorem claim_C7_counterexample :
    (" " : String) ≠ "" ∧ calculate_text_similarity " " " " = 0 := by
  refine ⟨by decide, ?_⟩
  have h0 : wordFinset " " = ∅ := by
    have h : pyWords (toLowerChars (" " : String).data) = [] := rfl
    simp [wordFinset, h]
  unfold calculate_text_similarity
  rw [if_neg (by simp : ¬((" " : String) = "" ∨ (" " : String) = ""))]
  rw [h0]
  simp

/-! Keep-first deduplication, the semantics of both pandas
`drop_duplicates(keep='first')` and Python's `list(set(...))` /
`Series.unique()` collection of first occurrences. -/

/-- Keep the first element for each key; `seen` holds keys already kept. -/
def keepFirstByAux {α κ : Type} [DecidableEq κ] (key : α → κ) :
    List α → List κ → List α
  | [], _ => []
  | x :: xs, seen =>
    if key x ∈ seen then keepFirstByAux key xs seen
    else x :: keepFirstByAux key xs (key x :: seen)

/-- Keep the first element of the list for each distinct key. -/
def keepFirstBy {α κ : Type} [DecidableEq κ] (key : α → κ) (l : List α) :
    List α :=
  keepFirstByAux key l []

theorem keepFirstByAux_sublist {α κ : Type} [DecidableEq κ] (key : α → κ) :
    ∀ (xs : List α) (seen : List κ),
      List.Sublist (keepFirstByAux key xs seen) xs := by
  intro xs
  induction xs with
  | nil => intro seen; exact List.Sublist.refl []
  | cons x xs ih =>
    intro seen
    rw [keepFirstByAux]
    by_cases hx : key x ∈ seen
    · rw [if_pos hx]
      exact List.Sublist.cons x (ih seen)
    · rw [if_neg hx]
      exact List.Sublist.cons₂ x (ih (key x :: seen))

theorem mem_keepFirstByAux {α κ : Type} [DecidableEq κ] (key : α → κ) :
    ∀ (xs : List α) (seen : List κ) (r : α),
      r ∈ keepFirstByAux key xs seen ↔
        key r ∉ seen ∧ xs.find? (fun y => decide (key y = key r)) = some r := by
  intro xs
  induction xs with
  | nil => intro seen r; simp [keepFirstByAux]
  | cons x xs ih =>
    intro seen r
    rw [keepFirstByAux]
    by_cases hx : key x ∈ seen
    · rw [if_pos hx, ih]
      by_cases he : key x = key r
      · have hr : key r ∈ seen := he ▸ hx
        simp [List.find?_cons, he, hr]
      · simp [List.find?_cons, he]
    · rw [if_neg hx]
      by_cases he : key x = key r
      · constructor
        · intro hm
          rcases List.mem_cons.mp hm with rfl | hm'
          · exact ⟨he ▸ hx, by simp [List.find?_cons, he]⟩
          · rw [ih] at hm'
            exact absurd (by simp [he]) hm'.1
        · rintro ⟨h1, h2⟩
          rw [List.find?_cons] at h2
          simp only [he, decide_True] at h2
          cases h2
          exact List.mem_cons_self _ _
      · constructor
        · intro hm
          rcases List.mem_cons.mp hm with rfl | hm'
          · exact absurd rfl he
          · rw [ih] at hm'
            refine ⟨fun hseen => hm'.1 (List.mem_cons_of_mem _ hseen), ?_⟩
            rw [List.find?_cons]
            simpa [he] using hm'.2
        · rintro ⟨h1, h2⟩
          rw [List.find?_cons] at h2
          simp [he] at h2
          refine List.mem_cons_of_mem _ ?_
          rw [ih]
          refine ⟨?_, h2⟩
          intro hmem
          rcases List.mem_cons.mp hmem with h | h
          · exact he h.symm
          · exact h1 h

theorem keepFirstByAux_keys {α κ : Type} [DecidableEq κ] (key : α → κ) :
    ∀ (xs : List α) (seen : List κ),
      ((keepFirstByAux key xs seen).map key).Nodup ∧
      ∀ k ∈ (keepFirstByAux key xs seen).map key, k ∉ seen := by
  intro xs
  induction xs with
  | nil => intro seen; simp [keepFirstByAux]
  | cons x xs ih =>
    intro seen
    rw [keepFirstByAux]
    by_cases hx : key x ∈ seen
    · rw [if_pos hx]
      exact ih seen
    · rw [if_neg hx]
      obtain ⟨h1, h2⟩ := ih (key x :: seen)
      refine ⟨?_, ?_⟩
      · rw [List.map_cons, List.nodup_cons]
        exact ⟨fun hm => (h2 _ hm) (List.mem_cons_self _ _), h1⟩
      · intro k hk
        rw [List.map_cons] at hk
        rcases List.mem_cons.mp hk with rfl | hk'
        · exact hx
        · exact fun hs => (h2 _ hk') (List.mem_cons_of_mem _ hs)

theorem keepFirstByAux_fixed {α κ : Type} [DecidableEq κ] (key : α → κ) :
    ∀ (l : List α) (seen : List κ), (l.map key).Nodup →
      (∀ k ∈ l.map key, k ∉ seen) → keepFirstByAux key l seen = l := by
  intro l
  induction l with
  | nil => intro seen _ _; rfl
  | cons x xs ih =>
    intro seen hnd hd
    rw [List.map_cons, List.nodup_cons] at hnd
    rw [keepFirstByAux, if_neg (hd (key x) (by simp))]
    congr 1
    refine ih _ hnd.2 ?_
    intro k hk
    intro hm
    rcases List.mem_cons.mp hm with rfl | hm'
    · exact hnd.1 hk
    · exact hd k (by simp [hk]) hm'

theorem keepFirstBy_idem {α κ : Type} [DecidableEq κ] (key : α → κ)
    (l : List α) : keepFirstBy key (keepFirstBy key l) = keepFirstBy key l := by
  unfold keepFirstBy
  exact keepFirstByAux_fixed key _ [] (keepFirstByAux_keys key l []).1
    (fun _ _ => List.not_mem_nil _)

/-! The dataset cleaner (src/data_processing/cleaner.py). -/

/-- One table row; `none` models a NaN cell.  The three derived columns
(`price_outlier`, `standardized_unit`, `extracted_state`) are carried on
the row, absent until their stage runs. -/
structure CRow where
  title : Option String
  supplier_name : Option String
  location : Option String
  description : Option String
  numeric_price : Option Rat
  price_unit : Option String
  price_outlier : Bool := false
  standardized_unit : Option String := none
  extracted_state : Option String := none
deriving Repr, DecidableEq

/-- A table: which columns are present, plus the rows.  A pandas access
`df[c]` on an absent column raises `KeyError`. -/
structure Table where
  hasTitle : Bool
  hasSupplier : Bool
  hasLocation : Bool
  hasDescription : Bool
  hasNumericPrice : Bool
  hasPriceUnit : Bool
  rows : List CRow
deriving Repr, DecidableEq

/-- `re.sub(r'\s+', ' ', s)`: collapse each whitespace run to one space.
The flag records whether the previous character was part of a run. -/
def squashAux : Bool → List Char → List Char
  | _, [] => []
  | inSp, c :: t =>
    if isPySpace c then
      if inSp then squashAux true t else ' ' :: squashAux true t
    else c :: squashAux false t

/-- Collapse whitespace runs to single spaces. -/
def squashWs (cs : List Char) : List Char := squashAux false cs

/-- One cell of `clean_text_columns`: `astype(str)` turns NaN into the
string "nan"; strip; collapse whitespace; then replace the literal
strings "nan"/"None"/"" by NaN. -/
def normCell (v : Option String) : Option String :=
  let s : List Char := (match v with | none => "nan" | some str => str).data
  let s1 := squashWs (pyStrip s)
  if s1 = "nan".data ∨ s1 = "None".data ∨ s1 = [] then none
  else some ⟨s1⟩

/-- `DataCleaner.clean_text_columns` (cleaner.py lines 31-42): each of the
four text columns is normalised only when present. -/
def clean_text_columns (t : Table) : Table :=
  { t with rows := t.rows.map fun r =>
      { r with
        title := if t.hasTitle then normCell r.title else r.title,
        supplier_name :=
          if t.hasSupplier then normCell r.supplier_name else r.supplier_name,
        location := if t.hasLocation then normCell r.location else r.location,
        description :=
          if t.hasDescription then normCell r.description else r.description } }

/-- Insert into a sorted list. -/
def insertSorted (x : Rat) : List Rat → List Rat
  | [] => [x]
  | y :: t => if x ≤ y then x :: y :: t else y :: insertSorted x t

/-- Sort ascending. -/
def sortRats (l : List Rat) : List Rat := l.foldr insertSorted []

/-- Modelled from pandas `Series.quantile` (linear interpolation over the
sorted present values); `none` (NaN) when no value is present. -/
def pQuantile (xs : List Rat) (q : Rat) : Option Rat :=
  match sortRats xs with
  | [] => none
  | y :: ys =>
    let m := (y :: ys).length
    let pos : Rat := q * ((m : Rat) - 1)
    let i : Nat := pos.floor.toNat
    let lo := (y :: ys).getD i 0
    let hi := (y :: ys).getD (min (i + 1) (m - 1)) 0
    some (lo + (pos - (i : Rat)) * (hi - lo))

/-- The `unit_mapping` dict literal of `DataCleaner.standardize_prices`
(cleaner.py lines 64-84).  NOTE: it is NOT the same table as
`utilsUnitTable` — it lacks `gm`/`ft` and adds `pieces`/`unit`/`inch`. -/
def cleanerUnitTable : List (String × String) :=
  [("piece", "piece"), ("pieces", "piece"), ("pc", "piece"), ("pcs", "piece"),
   ("unit", "piece"),
   ("kg", "kilogram"), ("kilogram", "kilogram"),
   ("gram", "gram"),
   ("ton", "ton"), ("tonne", "ton"),
   ("meter", "meter"), ("metre", "meter"), ("m", "meter"),
   ("feet", "feet"), ("foot", "feet"),
   ("inch", "inch"),
   ("litre", "liter"), ("liter", "liter"), ("l", "liter")]

/-- `df['price_unit'].str.lower().map(unit_mapping).fillna(lowered)` on one
cell. -/
def cleanerStdUnit (u : String) : String :=
  (dictGet cleanerUnitTable (toLowerStr u)).getD (toLowerStr u)

/-- `DataCleaner.standardize_prices` (cleaner.py lines 44-89): absent
`numeric_price` column short-circuits the whole stage; otherwise flag
1%/99%-quantile outliers and, when `price_unit` is present, lowercase it
and derive `standardized_unit` through `cleanerUnitTable`. -/
def standardize_prices (t : Table) : Table :=
  if t.hasNumericPrice = false then t
  else
    let vals := t.rows.filterMap (·.numeric_price)
    let q1 := pQuantile vals (1 / 100)
    let q99 := pQuantile vals (99 / 100)
    let rows1 := t.rows.map fun r =>
      { r with price_outlier :=
          match r.numeric_price, q1, q99 with
          | some v, some a, some b => decide (v < a) || decide (b < v)
          | _, _, _ => false }
    let rows2 :=
      if t.hasPriceUnit then
        rows1.map fun r =>
          let lu := r.price_unit.map toLowerStr
          { r with price_unit := lu,
                   standardized_unit :=
                     lu.map fun u => (dictGet cleanerUnitTable u).getD u }
      else rows1
    { t with rows := rows2 }

/-- Python substring containment (`needle in hay`). -/
def strOccurs (n : List Char) : List Char → Bool
  | [] => n.isPrefixOf []
  | c :: t => n.isPrefixOf (c :: t) || strOccurs n t

/-- Python `str.upper` on one character (ASCII scope). -/
def pyUpper (c : Char) : Char :=
  match c with
  | 'a' => 'A' | 'b' => 'B' | 'c' => 'C' | 'd' => 'D' | 'e' => 'E'
  | 'f' => 'F' | 'g' => 'G' | 'h' => 'H' | 'i' => 'I' | 'j' => 'J'
  | 'k' => 'K' | 'l' => 'L' | 'm' => 'M' | 'n' => 'N' | 'o' => 'O'
  | 'p' => 'P' | 'q' => 'Q' | 'r' => 'R' | 's' => 'S' | 't' => 'T'
  | 'u' => 'U' | 'v' => 'V' | 'w' => 'W' | 'x' => 'X' | 'y' => 'Y'
  | 'z' => 'Z' | other => other

/-- Python `str.title`: uppercase each letter that follows a non-letter,
lowercase the other letters.  The flag records whether the previous
character was a letter. -/
def pyTitleAux : Bool → List Char → List Char
  | _, [] => []
  | prev, c :: t =>
    if c.isAlpha then
      (if prev then pyLower c else pyUpper c) :: pyTitleAux true t
    else c :: pyTitleAux false t

/-- Python `str.title` on a string. -/
def pyTitle (s : String) : String := ⟨pyTitleAux false s.data⟩

/-- The `indian_states` literal of `DataCleaner.standardize_locations`
(cleaner.py lines 97-106) in source-literal order.  The source iterates a
Python set whose order is implementation-defined; this model fixes the
literal order. -/
def cleanerStateList : List String :=
  ["maharashtra", "uttar pradesh", "up", "karnataka", "tamil nadu", "tn",
   "gujarat", "rajasthan", "west bengal", "wb", "madhya pradesh", "mp",
   "andhra pradesh", "ap", "odisha", "orissa", "telangana", "kerala",
   "punjab", "haryana", "jharkhand", "bihar", "chhattisgarh", "uttarakhand",
   "himachal pradesh", "hp", "assam", "jammu and kashmir", "j&k",
   "delhi", "new delhi", "mumbai", "bangalore", "chennai", "kolkata",
   "hyderabad", "pune", "ahmedabad", "surat", "jaipur", "lucknow",
   "kanpur", "nagpur", "visakhapatnam", "indore", "thane", "bhopal"]

/-- `extract_state` inside `standardize_locations`: first set member that
occurs in the lowercased location, title-cased; NaN stays NaN. -/
def cleanerExtractState (loc : Option String) : Option String :=
  match loc with
  | none => none
  | some s =>
    match cleanerStateList.find? (fun st => strOccurs st.data (toLowerChars s.data)) with
    | some st => some (pyTitle st)
    | none => none

/-- `DataCleaner.standardize_locations` (cleaner.py lines 91-120): absent
`location` column short-circuits the stage. -/
def standardize_locations (t : Table) : Table :=
  if t.hasLocation = false then t
  else { t with rows := t.rows.map fun r =>
      { r with extracted_state := cleanerExtractState r.location } }

/-- The composite deduplication key:
`lower(title or "") ++ "_" ++ lower(supplier_name or "")`. -/
def dedupKey (r : CRow) : String :=
  toLowerStr (r.title.getD "") ++ "_" ++ toLowerStr (r.supplier_name.getD "")

/-- `DataCleaner.remove_duplicates` (cleaner.py lines 122-141): builds the
composite key column and keeps the first row per key.  The column
accesses `df['title']` / `df['supplier_name']` are unguarded, so an
absent column raises `KeyError`. -/
def remove_duplicates (t : Table) : Except String Table :=
  if t.hasTitle = false then Except.error "KeyError: title"
  else if t.hasSupplier = false then Except.error "KeyError: supplier_name"
  else Except.ok { t with rows := keepFirstBy dedupKey t.rows }

/-- `DataCleaner.clean_dataset` (cleaner.py lines 180-195): the four
mutating stages in order.  The quality report
(`validate_data_quality`, read-only and guarded per column) is not
modelled. -/
def clean_dataset (t : Table) : Except String Table :=
  remove_duplicates (standardize_locations (standardize_prices (clean_text_columns t)))

/-- C3: exact deduplication keeps, for each composite key
`lower(title)_lower(supplier)` (absent cells as ""), exactly the first
row in original order, drops the rest, and is idempotent. -/
theorem claim_C3 (t : Table) (h1 : t.hasTitle = true) (h2 : t.hasSupplier = true) :
    ∃ t', remove_duplicates t = Except.ok t' ∧
      List.Sublist t'.rows t.rows ∧
      (∀ r, r ∈ t'.rows ↔
        t.rows.find? (fun y => decide (dedupKey y = dedupKey r)) = some r) ∧
      remove_duplicates t' = Except.ok t' := by
  refine ⟨{ t with rows := keepFirstBy dedupKey t.rows }, ?_, ?_, ?_, ?_⟩
  · simp [remove_duplicates, h1, h2]
  · exact keepFirstByAux_sublist dedupKey t.rows []
  · intro r
    have h := mem_keepFirstByAux dedupKey t.rows [] r
    simpa [keepFirstBy] using h
  · simp [remove_duplicates, h1, h2, keepFirstBy_idem]

/-- Witness for C3 on a three-row table whose first two rows share the
key (case-insensitively). -/
theorem claim_C3_witness :
    ∃ t', remove_duplicates
        ⟨true, true, false, false, false, false,
         [⟨some "A", some "S", none, none, none, none, false, none, none⟩,
          ⟨some "a", some "s", none, none, none, none, false, none, none⟩,
          ⟨some "B", some "S", none, none, none, none, false, none, none⟩]⟩
        = Except.ok t' ∧
      List.Sublist t'.rows
        [⟨some "A", some "S", none, none, none, none, false, none, none⟩,
         ⟨some "a", some "s", none, none, none, none, false, none, none⟩,
         ⟨some "B", some "S", none, none, none, none, false, none, none⟩] ∧
      (∀ r, r ∈ t'.rows ↔
        List.find? (fun y => decide (dedupKey y = dedupKey r))
          [⟨some "A", some "S", none, none, none, none, false, none, none⟩,
           ⟨some "a", some "s", none, none, none, none, false, none, none⟩,
           ⟨some "B", some "S", none, none, none, none, false, none, none⟩]
          = some r) ∧
      remove_duplicates t' = Except.ok t' :=
  claim_C3 _ rfl rfl

theorem std_prices_flags (t : Table) :
    (standardize_prices t).hasTitle = t.hasTitle ∧
    (standardize_prices t).hasSupplier = t.hasSupplier := by
  unfold standardize_prices
  split <;> exact ⟨rfl, rfl⟩

theorem std_locations_flags (t : Table) :
    (standardize_locations t).hasTitle = t.hasTitle ∧
    (standardize_locations t).hasSupplier = t.hasSupplier := by
  unfold standardize_locations
  split <;> exact ⟨rfl, rfl⟩

theorem pipeline_flags (t : Table) :
    (standardize_locations (standardize_prices (clean_text_columns t))).hasTitle
        = t.hasTitle ∧
    (standardize_locations (standardize_prices (clean_text_columns t))).hasSupplier
        = t.hasSupplier := by
  constructor
  · rw [(std_locations_flags _).1, (std_prices_flags _).1]
    rfl
  · rw [(std_locations_flags _).2, (std_prices_flags _).2]
    rfl

/-- C2 (amended): every guarded stage is a no-op on a table lacking its
column (`standardize_prices` without `numeric_price` — including its
unit sub-stage —, `standardize_locations` without `location`,
`clean_text_columns` when its four text columns are all absent), and the
pipeline completes without error whenever `title` and `supplier_name`
are present; but `remove_duplicates` requires `title` and
`supplier_name` unconditionally, so a table lacking either makes
`clean_dataset` raise `KeyError` — absence of those two columns is NOT a
no-op. -/
theorem claim_C2 :
    (∀ t : Table, t.hasNumericPrice = false → standardize_prices t = t) ∧
    (∀ t : Table, t.hasLocation = false → standardize_locations t = t) ∧
    (∀ t : Table, t.hasTitle = false → t.hasSupplier = false →
      t.hasLocation = false → t.hasDescription = false →
      clean_text_columns t = t) ∧
    (∀ t : Table, t.hasTitle = true → t.hasSupplier = true →
      ∃ t', clean_dataset t = Except.ok t') ∧
    (∀ t : Table, t.hasTitle = false ∨ t.hasSupplier = false →
      ∃ msg, clean_dataset t = Except.error msg) := by
  refine ⟨?_, ?_, ?_, ?_, ?_⟩
  · intro t h
    simp [standardize_prices, h]
  · intro t h
    simp [standardize_locations, h]
  · intro t h1 h2 h3 h4
    obtain ⟨f1, f2, f3, f4, f5, f6, rows⟩ := t
    simp only at h1 h2 h3 h4
    subst h1; subst h2; subst h3; subst h4
    unfold clean_text_columns
    simp only [Bool.false_eq_true, if_false]
    congr 1
    rw [show (fun r : CRow =>
      { r with title := r.title, supplier_name := r.supplier_name,
               location := r.location, description := r.description })
      = id from rfl, List.map_id]
  · intro t h1 h2
    obtain ⟨e1, e2⟩ := pipeline_flags t
    rw [h1] at e1
    rw [h2] at e2
    refine ⟨{ standardize_locations (standardize_prices (clean_text_columns t)) with
        rows := keepFirstBy dedupKey
          (standardize_locations (standardize_prices (clean_text_columns t))).rows },
      ?_⟩
    unfold clean_dataset remove_duplicates
    rw [e1, e2]
    simp
    exact ⟨e1, e2⟩
  · intro t h
    obtain ⟨e1, e2⟩ := pipeline_flags t
    rcases h with h | h
    · rw [h] at e1
      refine ⟨"KeyError: title", ?_⟩
      unfold clean_dataset remove_duplicates
      rw [e1]
      simp
    · rw [h] at e2
      cases ht : (standardize_locations (standardize_prices (clean_text_columns t))).hasTitle with
      | false =>
        refine ⟨"KeyError: title", ?_⟩
        unfold clean_dataset remove_duplicates
        rw [ht]
        simp
      | true =>
        refine ⟨"KeyError: supplier_name", ?_⟩
        unfold clean_dataset remove_duplicates
        rw [ht, e2]
        rfl

/-- Witness for C2. -/
theorem claim_C2_witness :
    standardize_prices
        ⟨true, true, false, false, false, false,
         [⟨some "x", some "s", none, none, none, none, false, none, none⟩]⟩
      = ⟨true, true, false, false, false, false,
         [⟨some "x", some "s", none, none, none, none, false, none, none⟩]⟩ ∧
    standardize_locations
        ⟨true, true, false, false, false, false,
         [⟨some "x", some "s", none, none, none, none, false, none, none⟩]⟩
      = ⟨true, true, false, false, false, false,
         [⟨some "x", some "s", none, none, none, none, false, none, none⟩]⟩ ∧
    clean_text_columns ⟨false, false, false, false, true, true, []⟩
      = ⟨false, false, false, false, true, true, []⟩ ∧
    (∃ t', clean_dataset
        ⟨true, true, false, false, false, false,
         [⟨some "x", some "s", none, none, none, none, false, none, none⟩]⟩
      = Except.ok t') ∧
    (∃ msg, clean_dataset ⟨true, false, false, false, false, false, []⟩
      = Except.error msg) :=
  ⟨claim_C2.1 _ rfl, claim_C2.2.1 _ rfl, claim_C2.2.2.1 _ rfl rfl rfl rfl,
   claim_C2.2.2.2.1 _ rfl rfl, claim_C2.2.2.2.2 _ (Or.inr rfl)⟩

/-- Counterexample for C2 as stated: a one-row table with a `title`
column but no `supplier_name` column (an optional column per the claim)
makes the cleaning pipeline raise `KeyError` in `remove_duplicates`
instead of treating the stage as a no-op. -/
theorem claim_C2_counterexample :
    clean_dataset
        ⟨true, false, false, false, false, false,
         [⟨some "x", none, none, none, none, none, false, none, none⟩]⟩
      = Except.error "KeyError: supplier_name" := by
  rfl

/-! Location normalization (`normalize_location`, src/scraper/utils.py
lines 98-170). -/

/-- The `indian_states` dict literal of `normalize_location` in insertion
order (Python 3.7+ guarantees dict iteration in insertion order). -/
def utilsStateTable : List (String × String) :=
  [("andhra pradesh", "Andhra Pradesh"), ("ap", "Andhra Pradesh"),
   ("arunachal pradesh", "Arunachal Pradesh"),
   ("assam", "Assam"),
   ("bihar", "Bihar"),
   ("chhattisgarh", "Chhattisgarh"),
   ("goa", "Goa"),
   ("gujarat", "Gujarat"),
   ("haryana", "Haryana"),
   ("himachal pradesh", "Himachal Pradesh"), ("hp", "Himachal Pradesh"),
   ("jharkhand", "Jharkhand"),
   ("karnataka", "Karnataka"),
   ("kerala", "Kerala"),
   ("madhya pradesh", "Madhya Pradesh"), ("mp", "Madhya Pradesh"),
   ("maharashtra", "Maharashtra"),
   ("manipur", "Manipur"),
   ("meghalaya", "Meghalaya"),
   ("mizoram", "Mizoram"),
   ("nagaland", "Nagaland"),
   ("odisha", "Odisha"), ("orissa", "Odisha"),
   ("punjab", "Punjab"),
   ("rajasthan", "Rajasthan"),
   ("sikkim", "Sikkim"),
   ("tamil nadu", "Tamil Nadu"), ("tn", "Tamil Nadu"),
   ("telangana", "Telangana"),
   ("tripura", "Tripura"),
   ("uttar pradesh", "Uttar Pradesh"), ("up", "Uttar Pradesh"),
   ("uttarakhand", "Uttarakhand"),
   ("west bengal", "West Bengal"), ("wb", "West Bengal"),
   ("delhi", "Delhi"), ("new delhi", "Delhi"),
   ("mumbai", "Maharashtra"), ("bangalore", "Karnataka"),
   ("chennai", "Tamil Nadu"), ("kolkata", "West Bengal"),
   ("hyderabad", "Telangana"), ("pune", "Maharashtra"),
   ("ahmedabad", "Gujarat"), ("surat", "Gujarat"),
   ("jaipur", "Rajasthan"), ("lucknow", "Uttar Pradesh"),
   ("kanpur", "Uttar Pradesh"), ("nagpur", "Maharashtra")]

/-- The state-extraction loop of `normalize_location`: first key (in
insertion order) occurring as a SUBSTRING of the lowercased text wins;
`""` when none occurs. -/
def lookupStateLoop : List (String × String) → List Char → String
  | [], _ => ""
  | (k, v) :: rest, loc =>
    if strOccurs k.data loc then v else lookupStateLoop rest loc

/-- Result dictionary of `normalize_location`. -/
structure LocInfo where
  raw_location : String
  city : String
  state : String
  normalized : String
deriving Repr, DecidableEq

/-- `normalize_location`: strip, substring-match the state table, take the
text before the first comma as city (stripped). -/
def normalize_location (location_text : String) : LocInfo :=
  if location_text = "" then ⟨"", "", "", ""⟩
  else
    let lt := pyStrip location_text.data
    let state := lookupStateLoop utilsStateTable (toLowerChars lt)
    let pre := lt.takeWhile (· ≠ ',')
    let city : String := if pre = [] then "" else ⟨pyStrip pre⟩
    { raw_location := ⟨lt⟩, city := city, state := state,
      normalized :=
        if city ≠ "" ∧ state ≠ "" then city ++ ", " ++ state else ⟨lt⟩ }

theorem lookupStateLoop_eq_find :
    ∀ (tbl : List (String × String)) (loc : List Char),
      lookupStateLoop tbl loc
        = ((tbl.find? fun kv => strOccurs kv.1.data loc).map Prod.snd).getD "" := by
  intro tbl
  induction tbl with
  | nil => intro loc; rfl
  | cons kv rest ih =>
    intro loc
    obtain ⟨k, v⟩ := kv
    rw [lookupStateLoop]
    by_cases h : strOccurs k.data loc = true
    · rw [if_pos h, List.find?_cons]
      simp [h]
    · rw [if_neg h, List.find?_cons]
      simp only [Bool.not_eq_true] at h
      simp [h, ih]

/-- C5 (amended): state matching in `normalize_location` is substring
containment against the fixed table in INSERTION order — the first
matching key wins, deterministically — not longest-key-first; short
abbreviation keys can therefore match inside unrelated words
(counterexample: "up" inside "Gupta").  The empty input yields the empty
state. -/
theorem claim_C5 :
    (∀ s : String, s ≠ "" →
      (normalize_location s).state
        = ((utilsStateTable.find?
              fun kv => strOccurs kv.1.data (toLowerChars (pyStrip s.data))).map
            Prod.snd).getD "") ∧
    (normalize_location "").state = "" := by
  constructor
  · intro s h
    have hs : (normalize_location s).state
        = lookupStateLoop utilsStateTable (toLowerChars (pyStrip s.data)) := by
      unfold normalize_location
      rw [if_neg h]
    rw [hs, lookupStateLoop_eq_find]
  · rfl

/-- Witness for C5: "Mumbai" maps to Maharashtra through the city entry. -/
theorem claim_C5_witness : (normalize_location "Mumbai").state = "Maharashtra" := by
  rw [claim_C5.1 "Mumbai" (by decide)]
  decide

/-- Counterexample for C5 as stated: in "Gupta Market" no state name
occurs as a word, yet the short key "up" matches inside "Gupta" and the
state becomes "Uttar Pradesh" — the claimed longest-key-first,
no-match-inside-words behaviour does not hold. -/
theorem claim_C5_counterexample :
    (normalize_location "Gupta Market").state = "Uttar Pradesh" := by
  decide

/-! C6: the two unit-synonym tables. -/

/-- `unit_mapping.get(u, u)` as applied by `extract_price_unit` to an
(already lowercase) captured token. -/
def utilsStdUnit (u : String) : String :=
  (dictGet utilsUnitTable u).getD u

/-- C6 (amended): the cleaner's price-unit standardization agrees with the
extractor's synonym table on every token except `gm` and `ft` (mapped
only by extraction, to `gram`/`feet`) and `pieces` and `unit` (mapped
only by cleaning, to `piece`); on everything else the two tables agree
case-insensitively, and tokens unknown to the cleaning table pass
through (lowercased) unchanged. -/
theorem claim_C6 :
    (∀ u : String, toLowerStr u ∉ ["gm", "ft", "pieces", "unit"] →
      cleanerStdUnit u = utilsStdUnit (toLowerStr u)) ∧
    (∀ u : String, (∀ kv ∈ cleanerUnitTable, toLowerStr u ≠ kv.1) →
      cleanerStdUnit u = toLowerStr u) := by
  constructor
  · intro u hdiv
    show (dictGet cleanerUnitTable (toLowerStr u)).getD (toLowerStr u)
        = (dictGet utilsUnitTable (toLowerStr u)).getD (toLowerStr u)
    generalize toLowerStr u = v at hdiv ⊢
    by_cases hv : v ∈ ["piece", "pieces", "pc", "pcs", "unit", "kg", "kilogram",
        "gram", "gm", "ton", "tonne", "meter", "metre", "m", "feet", "foot", "ft",
        "inch", "litre", "liter", "l", "dozen", "pair", "set"]
    · fin_cases hv <;> first | decide | simp at hdiv
    · have hc : dictGet cleanerUnitTable v = none := by
        refine dictGet_eq_none fun kv hkv e => ?_
        have hk : ∀ kv ∈ cleanerUnitTable, kv.1 ∈ ["piece", "pieces", "pc", "pcs",
            "unit", "kg", "kilogram", "gram", "gm", "ton", "tonne", "meter",
            "metre", "m", "feet", "foot", "ft", "inch", "litre", "liter", "l",
            "dozen", "pair", "set"] := by decide
        exact hv (e ▸ hk kv hkv)
      have hu : dictGet utilsUnitTable v = none := by
        refine dictGet_eq_none fun kv hkv e => ?_
        have hk : ∀ kv ∈ utilsUnitTable, kv.1 ∈ ["piece", "pieces", "pc", "pcs",
            "unit", "kg", "kilogram", "gram", "gm", "ton", "tonne", "meter",
            "metre", "m", "feet", "foot", "ft", "inch", "litre", "liter", "l",
            "dozen", "pair", "set"] := by decide
        exact hv (e ▸ hk kv hkv)
      rw [hc, hu]
  · intro u h
    show (dictGet cleanerUnitTable (toLowerStr u)).getD (toLowerStr u) = toLowerStr u
    rw [dictGet_eq_none h, Option.getD_none]

/-- Witness for C6. -/
theorem claim_C6_witness :
    cleanerStdUnit "KG" = utilsStdUnit (toLowerStr "KG") ∧
    cleanerStdUnit "boxes" = toLowerStr "boxes" :=
  ⟨claim_C6.1 "KG" (by decide), claim_C6.2 "boxes" (by decide)⟩

/-- Counterexample for C6 as stated: the token `gm` is standardized to
`gram` by the extractor's table but passes through unchanged in the
cleaning stage — the two synonym tables are not the same. -/
theorem claim_C6_counterexample :
    cleanerStdUnit "gm" = "gm" ∧ utilsStdUnit "gm" = "gram" ∧
    ("gm" : String) ≠ "gram" := by
  decide

/-! The listing-link collector (`IndiaMartScraper.get_product_urls`,
src/scraper/indiamart_scraper.py lines 167-188). -/

/-- The fixed base origin of the scraper. -/
def base_url : String := "https://www.indiamart.com"

/-- `str.startswith`. -/
def strStartsWith (pre s : String) : Bool := pre.data.isPrefixOf s.data

/-- Modelled from `urllib.parse.urljoin` for the fixed base origin (no
path): protocol-relative, root-relative and bare-relative references. -/
def urljoin (base rel : String) : String :=
  if strStartsWith "//" rel then "https:" ++ rel
  else if strStartsWith "/" rel then base ++ rel
  else base ++ "/" ++ rel

/-- Resolve one `href` as the source does: keep absolute URLs, join the
rest against `base_url`. -/
def absolutize (href : String) : String :=
  if strStartsWith "http" href then href else urljoin base_url href

/-- A listing document, abstracted as the anchors each CSS selector
returns (each anchor's `href` attribute; `none` when absent). -/
def Doc : Type := String → List (Option String)

/-- The selector hypotheses of `get_product_urls` — note the source
iterates ALL of them (no `break`), unlike `extract_product_data`. -/
def link_selectors : List String :=
  [".prd a", ".lst a", ".product-item a", "a[href*=\"/proddetail/\"]"]

/-- `get_product_urls`: every selector contributes; falsy hrefs (absent
or empty) are skipped; relative URLs are absolutized; finally
`list(set(urls))` removes duplicates (Python's set order is unspecified;
this model keeps first occurrences — membership and duplicate-freeness
are the specified content). -/
def get_product_urls (doc : Doc) : List String :=
  keepFirstBy id (link_selectors.flatMap fun sel =>
    (doc sel).filterMap fun href? =>
      match href? with
      | none => none
      | some href => if href = "" then none else some (absolutize href))

/-- Modelled from the spec: the claimed behaviour — "the same
ordered-hypothesis strategy", i.e. only the FIRST selector with at least
one match contributes links. -/
def getListingLinksSpec (doc : Doc) : List String :=
  match link_selectors.find? (fun sel => !(doc sel).isEmpty) with
  | none => []
  | some sel =>
    keepFirstBy id ((doc sel).filterMap fun href? =>
      match href? with
      | none => none
      | some href => if href = "" then none else some (absolutize href))

theorem find_self_of_mem {α : Type} [DecidableEq α] {l : List α} {r : α} :
    r ∈ l → l.find? (fun y => decide (y = r)) = some r := by
  induction l with
  | nil => intro h; cases h
  | cons x t ih =>
    intro h
    rw [List.find?_cons]
    by_cases hx : x = r
    · simp [hx]
    · have hr : r ∈ t := by
        rcases List.mem_cons.mp h with h' | h'
        · exact absurd h'.symm hx
        · exact h'
      simp only [hx, decide_False]
      exact ih hr

theorem mem_keepFirstBy_id {α : Type} [DecidableEq α] {l : List α} {r : α} :
    r ∈ keepFirstBy id l ↔ r ∈ l := by
  rw [keepFirstBy, mem_keepFirstByAux]
  constructor
  · rintro ⟨_, h2⟩
    exact List.mem_of_find?_eq_some h2
  · intro h
    exact ⟨List.not_mem_nil r, find_self_of_mem h⟩

theorem keepFirstBy_id_nodup {α : Type} [DecidableEq α] (l : List α) :
    (keepFirstBy id l).Nodup := by
  have h := (keepFirstByAux_keys id l []).1
  simpa using h

/-- C9 (amended): `get_product_urls` collects links from ALL selector
hypotheses (the union, not just the first non-empty hypothesis — see the
counterexample), keeping every truthy `href` absolutized against the
fixed origin, and returns them deduplicated (no URL appears twice). -/
theorem claim_C9 (doc : Doc) :
    (∀ u, u ∈ get_product_urls doc ↔ ∃ sel ∈ link_selectors, ∃ href : String,
        some href ∈ doc sel ∧ href ≠ "" ∧ u = absolutize href) ∧
    (get_product_urls doc).Nodup := by
  constructor
  · intro u
    unfold get_product_urls
    rw [mem_keepFirstBy_id, List.mem_flatMap]
    constructor
    · rintro ⟨sel, hsel, hmem⟩
      obtain ⟨href?, hin, heq⟩ := List.mem_filterMap.mp hmem
      cases href? with
      | none => cases heq
      | some href =>
        dsimp only at heq
        by_cases he : href = ""
        · rw [if_pos he] at heq
          cases heq
        · rw [if_neg he] at heq
          cases heq
          exact ⟨sel, hsel, href, hin, he, rfl⟩
    · rintro ⟨sel, hsel, href, hin, he, rfl⟩
      refine ⟨sel, hsel, List.mem_filterMap.mpr ⟨some href, hin, ?_⟩⟩
      dsimp only
      rw [if_neg he]
  · exact keepFirstBy_id_nodup _

/-- A two-selector document refuting the first-hypothesis-only claim. -/
def exDoc9 : Doc := fun sel =>
  if sel = ".prd a" then [some "/a"]
  else if sel = ".lst a" then [some "/b"] else []

/-- Counterexample for C9 as stated: on a document where the first
selector already matches, the source still collects the second
selector's link — its output differs from the claimed
first-successful-hypothesis collection. -/
theorem claim_C9_counterexample :
    get_product_urls exDoc9 ≠ getListingLinksSpec exDoc9 ∧
    "https://www.indiamart.com/b" ∈ get_product_urls exDoc9 ∧
    "https://www.indiamart.com/b" ∉ getListingLinksSpec exDoc9 := by
  refine ⟨by decide, by decide, by decide⟩

/-! The similarity deduplicator (`detect_duplicate_products`,
src/scraper/utils.py lines 273-336). -/

/-- A row as seen by the deduplicator. -/
structure DupRow where
  title : Option String
  supplier_name : Option String
  numeric_price : Option Rat
deriving Repr, DecidableEq

/-- The default row read for an out-of-range index (never reached by the
source loops). -/
def defaultDupRow : DupRow := ⟨none, none, none⟩

/-- Positional row access. -/
def getRow (rows : List DupRow) (i : Nat) : DupRow := rows.getD i defaultDupRow

/-- Python `str()` of a possibly-NaN cell. -/
def pyStrOpt : Option String → String
  | none => "nan"
  | some s => s

/-- `calculate_text_similarity(str(row1['title']), str(row2['title']))`. -/
def title_sim (r1 r2 : DupRow) : Rat :=
  calculate_text_similarity (pyStrOpt r1.title) (pyStrOpt r2.title)

/-- Price similarity: `0` unless both prices present and positive, else
`max(0, 1 - |p1 - p2| / mean)`. -/
def price_sim (r1 r2 : DupRow) : Rat :=
  match r1.numeric_price, r2.numeric_price with
  | some p1, some p2 =>
    if 0 < p1 ∧ 0 < p2 then max 0 (1 - |p1 - p2| / ((p1 + p2) / 2)) else 0
  | _, _ => 0

/-- `combined_sim = title_sim * 0.8 + price_sim * 0.2`. -/
def combined_sim (r1 r2 : DupRow) : Rat :=
  title_sim r1 r2 * 0.8 + price_sim r1 r2 * 0.2

/-- `df[df['supplier_name'] == supplier]` as the list of matching row
positions (ascending). -/
def groupIdx (rows : List DupRow) (s : String) : List Nat :=
  (List.range rows.length).filter fun i => (getRow rows i).supplier_name = some s

/-- The inner `for j, row2` loop for a fixed outer row `i`: skip `i ≥ j`
and already-flagged rows, flag `j` when the combined similarity reaches
the threshold. -/
def innerLoop (rows : List DupRow) (θ : Rat) (i : Nat) :
    List Nat → List Bool → List Bool
  | [], fl => fl
  | j :: js, fl =>
    if i ≥ j then innerLoop rows θ i js fl
    else if fl.getD j false then innerLoop rows θ i js fl
    else if θ ≤ combined_sim (getRow rows i) (getRow rows j) then
      innerLoop rows θ i js (fl.set j true)
    else innerLoop rows θ i js fl

/-- The outer `for i, row1` loop: rows already flagged are skipped. -/
def outerLoop (rows : List DupRow) (θ : Rat) :
    List Nat → List Nat → List Bool → List Bool
  | [], _, fl => fl
  | i :: is, g, fl =>
    if fl.getD i false then outerLoop rows θ is g fl
    else outerLoop rows θ is g (innerLoop rows θ i g fl)

/-- One supplier partition: skipped entirely when it has fewer than two
rows. -/
def processSupplier (rows : List DupRow) (θ : Rat) (s : String)
    (fl : List Bool) : List Bool :=
  if (groupIdx rows s).length < 2 then fl
  else outerLoop rows θ (groupIdx rows s) (groupIdx rows s) fl

/-- `df['supplier_name'].unique()`: values in order of first appearance,
NaN included. -/
def uniqueSuppliers (rows : List DupRow) : List (Option String) :=
  keepFirstBy id (rows.map (·.supplier_name))

/-- `detect_duplicate_products`: the resulting `is_duplicate` column.
Tables with fewer than two rows are all-false; NaN suppliers are
skipped. -/
def detect_duplicate_products (rows : List DupRow) (θ : Rat) : List Bool :=
  if rows.length < 2 then List.replicate rows.length false
  else (uniqueSuppliers rows).foldl
    (fun fl os =>
      match os with
      | none => fl
      | some s => processSupplier rows θ s fl)
    (List.replicate rows.length false)

/-! The declarative fixpoint the flags satisfy. -/

/-- One step of the declarative flag computation: row `j` is flagged when
some earlier, unflagged row of the same (present) supplier scores at
least the threshold against it. -/
def specStep (rows : List DupRow) (θ : Rat) (fl : List Bool) (j : Nat) : Bool :=
  (List.range j).any fun i =>
    decide ((getRow rows i).supplier_name = (getRow rows j).supplier_name) &&
    decide ((getRow rows j).supplier_name ≠ none) &&
    !(fl.getD i false) &&
    decide (θ ≤ combined_sim (getRow rows i) (getRow rows j))

/-- The declarative flags, built left to right. -/
def specFlags (rows : List DupRow) (θ : Rat) : Nat → List Bool
  | 0 => []
  | j + 1 => specFlags rows θ j ++ [specStep rows θ (specFlags rows θ j) j]

/-- The declarative flag of row `j`. -/
def kFlag (rows : List DupRow) (θ : Rat) (j : Nat) : Bool :=
  (specFlags rows θ (j + 1)).getD j false

theorem specFlags_length (rows : List DupRow) (θ : Rat) :
    ∀ m, (specFlags rows θ m).length = m := by
  intro m
  induction m with
  | zero => rfl
  | succ j ih => simp [specFlags, ih]

theorem specFlags_getD_succ (rows : List DupRow) (θ : Rat) {m k : Nat}
    (h : k < m) :
    (specFlags rows θ (m + 1)).getD k false = (specFlags rows θ m).getD k false := by
  rw [specFlags]
  exact List.getD_append _ _ _ _ (by rw [specFlags_length]; exact h)

theorem specFlags_getD_mono (rows : List DupRow) (θ : Rat) {m m' k : Nat}
    (h : k < m) (hm : m ≤ m') :
    (specFlags rows θ m').getD k false = (specFlags rows θ m).getD k false := by
  induction m' with
  | zero => omega
  | succ j ih =>
    rcases Nat.lt_or_ge k j with hk | hk
    · by_cases hj : m = j + 1
      · rw [hj]
      · rw [specFlags_getD_succ rows θ hk]
        exact ih (by omega)
    · have : m = j + 1 := by omega
      rw [this]

theorem kFlag_spec (rows : List DupRow) (θ : Rat) {m k : Nat} (h : k < m) :
    (specFlags rows θ m).getD k false = kFlag rows θ k := by
  rw [kFlag, specFlags_getD_mono rows θ (Nat.lt_succ_self k) h]

theorem list_any_congr {l : List α} {f g : α → Bool}
    (h : ∀ x ∈ l, f x = g x) : l.any f = l.any g := by
  induction l with
  | nil => rfl
  | cons x t ih =>
    simp only [List.any_cons]
    rw [h x (by simp), ih fun y hy => h y (List.mem_cons_of_mem _ hy)]

theorem kFlag_eq (rows : List DupRow) (θ : Rat) (j : Nat) :
    kFlag rows θ j = (List.range j).any fun i =>
      decide ((getRow rows i).supplier_name = (getRow rows j).supplier_name) &&
      decide ((getRow rows j).supplier_name ≠ none) &&
      !(kFlag rows θ i) &&
      decide (θ ≤ combined_sim (getRow rows i) (getRow rows j)) := by
  show (specFlags rows θ (j + 1)).getD j false = _
  rw [specFlags]
  rw [List.getD_append_right _ _ _ _ (by rw [specFlags_length])]
  rw [specFlags_length]
  simp only [Nat.sub_self, List.getD_cons_zero]
  unfold specStep
  refine list_any_congr fun i hi => ?_
  rw [kFlag_spec rows θ (List.mem_range.mp hi)]

theorem kFlag_iff (rows : List DupRow) (θ : Rat) (j : Nat) :
    kFlag rows θ j = true ↔ ∃ i, i < j ∧
      (getRow rows i).supplier_name = (getRow rows j).supplier_name ∧
      (getRow rows j).supplier_name ≠ none ∧
      kFlag rows θ i = false ∧
      θ ≤ combined_sim (getRow rows i) (getRow rows j) := by
  rw [kFlag_eq, List.any_eq_true]
  constructor
  · rintro ⟨i, hi, hcond⟩
    simp only [Bool.and_eq_true, decide_eq_true_eq, Bool.not_eq_true'] at hcond
    exact ⟨i, List.mem_range.mp hi, hcond.1.1.1, hcond.1.1.2, hcond.1.2, hcond.2⟩
  · rintro ⟨i, hi, h1, h2, h3, h4⟩
    refine ⟨i, List.mem_range.mpr hi, ?_⟩
    simp [h1, h2, h3, h4]

theorem getRow_out {rows : List DupRow} {j : Nat} (h : rows.length ≤ j) :
    getRow rows j = defaultDupRow :=
  List.getD_eq_default _ _ h

theorem kFlag_none {rows : List DupRow} {θ : Rat} {j : Nat}
    (h : (getRow rows j).supplier_name = none) : kFlag rows θ j = false := by
  rw [← Bool.not_eq_true, kFlag_iff]
  rintro ⟨i, _, _, h2, _⟩
  exact h2 h

theorem innerLoop_length (rows : List DupRow) (θ : Rat) (i : Nat) :
    ∀ (js : List Nat) (fl : List Bool),
      (innerLoop rows θ i js fl).length = fl.length := by
  intro js
  induction js with
  | nil => intro fl; rfl
  | cons j js ih =>
    intro fl
    rw [innerLoop]
    split
    · exact ih fl
    · split
      · exact ih fl
      · split
        · rw [ih, List.length_set]
        · exact ih fl

theorem innerLoop_getD (rows : List DupRow) (θ : Rat) (i : Nat) :
    ∀ (js : List Nat) (fl : List Bool), (∀ j ∈ js, j < fl.length) → ∀ k,
      ((innerLoop rows θ i js fl).getD k false = true ↔
        fl.getD k false = true ∨
          (k ∈ js ∧ i < k ∧
            θ ≤ combined_sim (getRow rows i) (getRow rows k))) := by
  intro js
  induction js with
  | nil =>
    intro fl _ k
    simp [innerLoop]
  | cons j js ih =>
    intro fl hlt k
    have hjlen : j < fl.length := hlt j (by simp)
    have hlt' : ∀ j' ∈ js, j' < fl.length := fun j' h => hlt j' (by simp [h])
    rw [innerLoop]
    by_cases hij : i ≥ j
    · rw [if_pos hij, ih fl hlt' k]
      constructor
      · rintro (h | ⟨h1, h2, h3⟩)
        · exact Or.inl h
        · exact Or.inr ⟨List.mem_cons_of_mem _ h1, h2, h3⟩
      · rintro (h | ⟨h1, h2, h3⟩)
        · exact Or.inl h
        · rcases List.mem_cons.mp h1 with rfl | h1'
          · omega
          · exact Or.inr ⟨h1', h2, h3⟩
    · rw [if_neg hij]
      by_cases hfl : fl.getD j false = true
      · rw [if_pos hfl, ih fl hlt' k]
        constructor
        · rintro (h | ⟨h1, h2, h3⟩)
          · exact Or.inl h
          · exact Or.inr ⟨List.mem_cons_of_mem _ h1, h2, h3⟩
        · rintro (h | ⟨h1, h2, h3⟩)
          · exact Or.inl h
          · rcases List.mem_cons.mp h1 with rfl | h1'
            · exact Or.inl hfl
            · exact Or.inr ⟨h1', h2, h3⟩
      · rw [if_neg (by simpa using hfl)]
        by_cases hsc : θ ≤ combined_sim (getRow rows i) (getRow rows j)
        · rw [if_pos hsc]
          rw [ih (fl.set j true) (by simpa [List.length_set] using hlt') k]
          by_cases hkj : k = j
          · subst hkj
            have hset : (fl.set k true).getD k false = true := by
              simp [List.getD, List.getElem?_set_eq_of_lt _ hjlen]
            rw [hset]
            constructor
            · intro _
              exact Or.inr ⟨by simp, by omega, hsc⟩
            · intro _
              exact Or.inl rfl
          · rw [show (fl.set j true).getD k false = fl.getD k false by
              simp [List.getD, List.getElem?_set_ne (fun e => hkj e.symm)]]
            constructor
            · rintro (h | ⟨h1, h2, h3⟩)
              · exact Or.inl h
              · exact Or.inr ⟨List.mem_cons_of_mem _ h1, h2, h3⟩
            · rintro (h | ⟨h1, h2, h3⟩)
              · exact Or.inl h
              · rcases List.mem_cons.mp h1 with rfl | h1'
                · exact absurd rfl hkj
                · exact Or.inr ⟨h1', h2, h3⟩
        · rw [if_neg hsc, ih fl hlt' k]
          constructor
          · rintro (h | ⟨h1, h2, h3⟩)
            · exact Or.inl h
            · exact Or.inr ⟨List.mem_cons_of_mem _ h1, h2, h3⟩
          · rintro (h | ⟨h1, h2, h3⟩)
            · exact Or.inl h
            · rcases List.mem_cons.mp h1 with rfl | h1'
              · exact absurd h3 hsc
              · exact Or.inr ⟨h1', h2, h3⟩

theorem mem_groupIdx {rows : List DupRow} {s : String} {i : Nat} :
    i ∈ groupIdx rows s ↔
      i < rows.length ∧ (getRow rows i).supplier_name = some s := by
  simp [groupIdx, List.mem_filter, List.mem_range]

theorem groupIdx_sorted (rows : List DupRow) (s : String) :
    (groupIdx rows s).Pairwise (· < ·) :=
  (List.pairwise_lt_range _).filter _

theorem groupIdx_nodup (rows : List DupRow) (s : String) :
    (groupIdx rows s).Nodup :=
  (groupIdx_sorted rows s).imp Nat.ne_of_lt

theorem boolEqOfIff {a b : Bool} (h : a = true ↔ b = true) : a = b := by
  cases a <;> cases b <;> simp_all

theorem kFlag_group {rows : List DupRow} {θ : Rat} {s : String} {j : Nat}
    (hj : j ∈ groupIdx rows s) :
    (kFlag rows θ j = true ↔ ∃ i ∈ groupIdx rows s,
      kFlag rows θ i = false ∧ i < j ∧
      θ ≤ combined_sim (getRow rows i) (getRow rows j)) := by
  rw [kFlag_iff]
  obtain ⟨hjn, hjs⟩ := mem_groupIdx.mp hj
  constructor
  · rintro ⟨i, hi, h1, _, h3, h4⟩
    rw [hjs] at h1
    exact ⟨i, mem_groupIdx.mpr ⟨by omega, h1⟩, h3, hi, h4⟩
  · rintro ⟨i, hig, h3, hij, h4⟩
    obtain ⟨_, his⟩ := mem_groupIdx.mp hig
    exact ⟨i, hij, by rw [his, hjs], by rw [hjs]; simp, h3, h4⟩

theorem mem_done_of_lt {done todo : List Nat} {j : Nat}
    (hsort : (done ++ j :: todo).Pairwise (· < ·)) {i : Nat}
    (hi : i ∈ done ++ j :: todo) (hlt : i < j) : i ∈ done := by
  rcases List.mem_append.mp hi with h | h
  · exact h
  · rcases List.mem_cons.mp h with rfl | h'
    · omega
    · have := (List.pairwise_append.mp hsort).2.1
      have := List.rel_of_pairwise_cons this h'
      omega

theorem outerLoop_correct (rows : List DupRow) (θ : Rat) (s : String)
    (fl0 : List Bool) :
    ∀ (todo done : List Nat) (fl : List Bool),
      groupIdx rows s = done ++ todo →
      fl.length = rows.length →
      (∀ k, k ∈ groupIdx rows s →
        (fl.getD k false = true ↔ ∃ i ∈ done, kFlag rows θ i = false ∧ i < k ∧
          θ ≤ combined_sim (getRow rows i) (getRow rows k))) →
      (∀ k, k ∉ groupIdx rows s → fl.getD k false = fl0.getD k false) →
      (outerLoop rows θ todo (groupIdx rows s) fl).length = rows.length ∧
      (∀ k, k ∈ groupIdx rows s →
        ((outerLoop rows θ todo (groupIdx rows s) fl).getD k false = true ↔
          ∃ i ∈ groupIdx rows s, kFlag rows θ i = false ∧ i < k ∧
            θ ≤ combined_sim (getRow rows i) (getRow rows k))) ∧
      (∀ k, k ∉ groupIdx rows s →
        (outerLoop rows θ todo (groupIdx rows s) fl).getD k false
          = fl0.getD k false) := by
  intro todo
  induction todo with
  | nil =>
    intro done fl hdecomp hlen hin hout
    rw [List.append_nil] at hdecomp
    subst hdecomp
    exact ⟨hlen, hin, hout⟩
  | cons i todo' ih =>
    intro done fl hdecomp hlen hin hout
    have hig : i ∈ groupIdx rows s := by rw [hdecomp]; simp
    have hsort : (done ++ i :: todo').Pairwise (· < ·) := by
      rw [← hdecomp]; exact groupIdx_sorted rows s
    -- the outer check reads exactly the declarative flag of `i`
    have hfli : fl.getD i false = kFlag rows θ i := by
      apply boolEqOfIff
      rw [hin i hig, kFlag_group hig]
      constructor
      · rintro ⟨i', hi', h3, hlt', h4⟩
        exact ⟨i', by rw [hdecomp]; exact List.mem_append_left _ hi', h3, hlt', h4⟩
      · rintro ⟨i', hi', h3, hlt', h4⟩
        rw [hdecomp] at hi'
        exact ⟨i', mem_done_of_lt hsort hi' hlt', h3, hlt', h4⟩
    rw [outerLoop]
    by_cases hk : kFlag rows θ i = true
    · rw [if_pos (by rw [hfli]; exact hk)]
      refine ih (done ++ [i]) fl (by rw [hdecomp, List.append_assoc]; rfl) hlen
        ?_ hout
      intro k hkg
      rw [hin k hkg]
      constructor
      · rintro ⟨i', h1, h2, h3, h4⟩
        exact ⟨i', List.mem_append_left _ h1, h2, h3, h4⟩
      · rintro ⟨i', h1, h2, h3, h4⟩
        rcases List.mem_append.mp h1 with h | h
        · exact ⟨i', h, h2, h3, h4⟩
        · rw [List.mem_singleton] at h
          subst h
          rw [hk] at h2
          cases h2
    · rw [if_neg (by rw [hfli]; exact hk)]
      rw [Bool.not_eq_true] at hk
      have hltg : ∀ j ∈ groupIdx rows s, j < fl.length := by
        intro j hj
        rw [hlen]
        exact (mem_groupIdx.mp hj).1
      have hinner := innerLoop_getD rows θ i (groupIdx rows s) fl hltg
      have hlen' : (innerLoop rows θ i (groupIdx rows s) fl).length = rows.length := by
        rw [innerLoop_length, hlen]
      refine ih (done ++ [i]) _ (by rw [hdecomp, List.append_assoc]; rfl) hlen'
        ?_ ?_
      · intro k hkg
        rw [hinner k]
        constructor
        · rintro (h | ⟨_, h2, h3⟩)
          · obtain ⟨i', h1', h2', h3', h4'⟩ := (hin k hkg).mp h
            exact ⟨i', List.mem_append_left _ h1', h2', h3', h4'⟩
          · exact ⟨i, List.mem_append_right _ (by simp), hk, h2, h3⟩
        · rintro ⟨i', h1, h2, h3, h4⟩
          rcases List.mem_append.mp h1 with h | h
          · exact Or.inl ((hin k hkg).mpr ⟨i', h, h2, h3, h4⟩)
          · rw [List.mem_singleton] at h
            subst h
            exact Or.inr ⟨hkg, h3, h4⟩
      · intro k hkg
        rw [← hout k hkg]
        apply boolEqOfIff
        rw [hinner k]
        constructor
        · rintro (h | ⟨h1, _, _⟩)
          · exact h
          · exact absurd h1 hkg
        · intro h
          exact Or.inl h

theorem two_mem_le_length {g : List Nat} (hnd : g.Nodup) {i k : Nat}
    (hi : i ∈ g) (hk : k ∈ g) (hne : i ≠ k) : 2 ≤ g.length := by
  have hcard : g.toFinset.card = g.length := List.toFinset_card_of_nodup hnd
  have hsub : ({i, k} : Finset Nat) ⊆ g.toFinset := by
    intro x hx
    rw [List.mem_toFinset]
    rcases Finset.mem_insert.mp hx with rfl | hx'
    · exact hi
    · rw [Finset.mem_singleton] at hx'
      subst hx'
      exact hk
  have h2 : ({i, k} : Finset Nat).card = 2 := Finset.card_pair hne
  have := Finset.card_le_card hsub
  omega

theorem processSupplier_correct (rows : List DupRow) (θ : Rat) (s : String)
    (fl : List Bool) (hlen : fl.length = rows.length)
    (hg : ∀ k ∈ groupIdx rows s, fl.getD k false = false) :
    (processSupplier rows θ s fl).length = rows.length ∧
    (∀ k ∈ groupIdx rows s,
      (processSupplier rows θ s fl).getD k false = kFlag rows θ k) ∧
    (∀ k, k ∉ groupIdx rows s →
      (processSupplier rows θ s fl).getD k false = fl.getD k false) := by
  unfold processSupplier
  by_cases hsmall : (groupIdx rows s).length < 2
  · rw [if_pos hsmall]
    refine ⟨hlen, ?_, fun _ _ => rfl⟩
    intro k hk
    rw [hg k hk]
    symm
    rw [← Bool.not_eq_true, kFlag_group hk]
    rintro ⟨i, hi, _, hlt, _⟩
    have := two_mem_le_length (groupIdx_nodup rows s) hi hk (by omega)
    omega
  · rw [if_neg hsmall]
    have h := outerLoop_correct rows θ s fl (groupIdx rows s) [] fl rfl hlen
      (fun k hk => by rw [hg k hk]; simp) (fun _ _ => rfl)
    refine ⟨h.1, ?_, h.2.2⟩
    intro k hk
    apply boolEqOfIff
    rw [h.2.1 k hk, kFlag_group hk]

theorem foldSuppliers_correct (rows : List DupRow) (θ : Rat) :
    ∀ (todo processed : List (Option String)) (fl : List Bool),
      uniqueSuppliers rows = processed ++ todo →
      fl.length = rows.length →
      (∀ k s, (getRow rows k).supplier_name = some s → some s ∈ processed →
        fl.getD k false = kFlag rows θ k) →
      (∀ k, (∀ s, (getRow rows k).supplier_name = some s → some s ∉ processed) →
        fl.getD k false = false) →
      (todo.foldl (fun fl os =>
          match os with
          | none => fl
          | some s => processSupplier rows θ s fl) fl).length = rows.length ∧
      (∀ k s, (getRow rows k).supplier_name = some s →
        some s ∈ processed ++ todo →
        (todo.foldl (fun fl os =>
          match os with
          | none => fl
          | some s => processSupplier rows θ s fl) fl).getD k false
            = kFlag rows θ k) ∧
      (∀ k, (∀ s, (getRow rows k).supplier_name = some s →
          some s ∉ processed ++ todo) →
        (todo.foldl (fun fl os =>
          match os with
          | none => fl
          | some s => processSupplier rows θ s fl) fl).getD k false = false) := by
  intro todo
  induction todo with
  | nil =>
    intro processed fl hdecomp hlen hsome hnone
    rw [List.foldl_nil]
    refine ⟨hlen, ?_, ?_⟩
    · intro k s h1 h2
      rw [List.append_nil] at h2
      exact hsome k s h1 h2
    · intro k h
      refine hnone k fun s h1 h2 => ?_
      exact h s h1 (List.mem_append_left _ h2)
  | cons os todo' ih =>
    intro processed fl hdecomp hlen hsome hnone
    rw [List.foldl_cons]
    cases os with
    | none =>
      have := ih (processed ++ [none]) fl
        (by rw [hdecomp, List.append_assoc]; rfl) hlen
        (fun k s h1 h2 => hsome k s h1 (by
          rcases List.mem_append.mp h2 with h | h
          · exact h
          · rw [List.mem_singleton] at h
            cases h))
        (fun k h => hnone k fun s h1 h2 =>
          h s h1 (List.mem_append_left _ h2))
      refine ⟨this.1, ?_, ?_⟩
      · intro k s h1 h2
        refine this.2.1 k s h1 ?_
        rcases List.mem_append.mp h2 with h | h
        · exact List.mem_append_left _ (List.mem_append_left _ h)
        · rcases List.mem_cons.mp h with h' | h'
          · cases h'
          · exact List.mem_append_right _ h'
      · intro k h
        refine this.2.2 k fun s h1 h2 => ?_
        rcases List.mem_append.mp h2 with h' | h'
        · rcases List.mem_append.mp h' with h'' | h''
          · exact h s h1 (List.mem_append_left _ h'')
          · rw [List.mem_singleton] at h''
            cases h''
        · exact h s h1 (List.mem_append_right _ (List.mem_cons_of_mem _ h'))
    | some s =>
      have hnodup : (uniqueSuppliers rows).Nodup := keepFirstBy_id_nodup _
      have hsnotp : some s ∉ processed := by
        intro hmem
        rw [hdecomp] at hnodup
        have := List.disjoint_of_nodup_append hnodup
        exact this hmem (by simp)
      have hgfalse : ∀ k ∈ groupIdx rows s, fl.getD k false = false := by
        intro k hk
        obtain ⟨_, hks⟩ := mem_groupIdx.mp hk
        exact hnone k fun s' h1 h2 => by
          rw [hks] at h1
          cases h1
          exact hsnotp h2
      have hproc := processSupplier_correct rows θ s fl hlen hgfalse
      have := ih (processed ++ [some s]) (processSupplier rows θ s fl)
        (by rw [hdecomp, List.append_assoc]; rfl) hproc.1
        ?_ ?_
      · refine ⟨this.1, ?_, ?_⟩
        · intro k s' h1 h2
          refine this.2.1 k s' h1 ?_
          rcases List.mem_append.mp h2 with h | h
          · exact List.mem_append_left _ (List.mem_append_left _ h)
          · rcases List.mem_cons.mp h with h' | h'
            · rw [h']
              exact List.mem_append_left _ (List.mem_append_right _ (by simp))
            · exact List.mem_append_right _ h'
        · intro k h
          refine this.2.2 k fun s' h1 h2 => ?_
          rcases List.mem_append.mp h2 with h' | h'
          · rcases List.mem_append.mp h' with h'' | h''
            · exact h s' h1 (List.mem_append_left _ h'')
            · rw [List.mem_singleton] at h''
              obtain rfl := Option.some.inj h''
              exact h _ h1 (List.mem_append_right _ (by simp))
          · exact h s' h1 (List.mem_append_right _ (List.mem_cons_of_mem _ h'))
      · intro k s' h1 h2
        rcases List.mem_append.mp h2 with h | h
        · -- handled supplier from an earlier partition: frame
          have hne : k ∉ groupIdx rows s := by
            intro hk
            obtain ⟨_, hks⟩ := mem_groupIdx.mp hk
            rw [hks] at h1
            obtain rfl := Option.some.inj h1
            exact hsnotp h
          rw [hproc.2.2 k hne]
          exact hsome k s' h1 h
        · rw [List.mem_singleton] at h
          obtain rfl := Option.some.inj h
          by_cases hkn : k < rows.length
          · exact hproc.2.1 k (mem_groupIdx.mpr ⟨hkn, h1⟩)
          · rw [getRow_out (by omega)] at h1
            cases h1
      · intro k h
        have hne : k ∉ groupIdx rows s := by
          intro hk
          obtain ⟨_, hks⟩ := mem_groupIdx.mp hk
          exact h s hks (by simp)
        rw [hproc.2.2 k hne]
        exact hnone k fun s' h1 h2 =>
          h s' h1 (List.mem_append_left _ h2)

theorem kFlag_small {rows : List DupRow} {θ : Rat} (h : rows.length < 2) :
    ∀ j, kFlag rows θ j = false := by
  intro j
  rw [← Bool.not_eq_true, kFlag_iff]
  rintro ⟨i, hij, _, h2, _, _⟩
  exact h2 (by rw [getRow_out (by omega)]; rfl)

theorem detect_getD_eq_kFlag (rows : List DupRow) (θ : Rat) (j : Nat) :
    (detect_duplicate_products rows θ).getD j false = kFlag rows θ j := by
  unfold detect_duplicate_products
  by_cases hlen : rows.length < 2
  · rw [if_pos hlen, kFlag_small hlen]
    simp [List.getD]
  · rw [if_neg hlen]
    have hfold := foldSuppliers_correct rows θ (uniqueSuppliers rows) []
      (List.replicate rows.length false) rfl (by simp)
      (fun k s _ hmem => by cases hmem)
      (fun k _ => by simp [List.getD])
    cases hsup : (getRow rows j).supplier_name with
    | none =>
      rw [kFlag_none hsup]
      refine hfold.2.2 j fun s h1 _ => ?_
      rw [hsup] at h1
      cases h1
    | some s =>
      by_cases hj : j < rows.length
      · refine hfold.2.1 j s hsup ?_
        rw [List.nil_append]
        rw [show uniqueSuppliers rows = keepFirstBy id (rows.map (·.supplier_name))
          from rfl, mem_keepFirstBy_id]
        rw [List.mem_map]
        refine ⟨getRow rows j, ?_, hsup⟩
        rw [getRow, List.getD_eq_getElem _ _ hj]
        exact List.getElem_mem hj
      · rw [getRow_out (by omega)] at hsup
        cases hsup

theorem detect_length (rows : List DupRow) (θ : Rat) :
    (detect_duplicate_products rows θ).length = rows.length := by
  unfold detect_duplicate_products
  by_cases hlen : rows.length < 2
  · rw [if_pos hlen, List.length_replicate]
  · rw [if_neg hlen]
    exact (foldSuppliers_correct rows θ (uniqueSuppliers rows) []
      (List.replicate rows.length false) rfl (by simp)
      (fun k s _ hmem => by cases hmem)
      (fun k _ => by simp [List.getD])).1

theorem list_eq_pair {l : List Bool} {a b : Bool} (hl : l.length = 2)
    (h0 : l.getD 0 false = a) (h1 : l.getD 1 false = b) : l = [a, b] := by
  match l, hl with
  | [x, y], _ =>
    simp [List.getD] at h0 h1
    rw [h0, h1]

/-- C4 (amended): in `detect_duplicate_products` (i) a row `j` ends up
flagged exactly when some earlier row `i` of the same, present supplier
is itself left unflagged and `0.8·titleSim + 0.2·priceSim ≥ threshold`
(the code's greedy pass computes precisely this fixpoint); consequently
(ii) a row whose supplier no other row shares is never flagged, and
(iii) a row with absent supplier is never flagged; and (iv) for a
two-row table with equal supplier, identical titles CONTAINING AT LEAST
ONE WORD (an all-whitespace title scores 0, see the counterexample) and
identical positive price, with threshold ≤ 1, exactly the later row is
flagged. -/
theorem claim_C4 :
    (∀ (rows : List DupRow) (θ : Rat) (j : Nat),
      ((detect_duplicate_products rows θ).getD j false = true ↔
        ∃ i, i < j ∧
          (getRow rows i).supplier_name = (getRow rows j).supplier_name ∧
          (getRow rows j).supplier_name ≠ none ∧
          (detect_duplicate_products rows θ).getD i false = false ∧
          θ ≤ combined_sim (getRow rows i) (getRow rows j))) ∧
    (∀ (rows : List DupRow) (θ : Rat) (j : Nat),
      (∀ i, i ≠ j →
        (getRow rows i).supplier_name ≠ (getRow rows j).supplier_name) →
      (detect_duplicate_products rows θ).getD j false = false) ∧
    (∀ (rows : List DupRow) (θ : Rat) (j : Nat),
      (getRow rows j).supplier_name = none →
      (detect_duplicate_products rows θ).getD j false = false) ∧
    (∀ (r0 r1 : DupRow) (s t : String) (p θ : Rat),
      r0.title = some t → r1.title = some t → wordFinset t ≠ ∅ →
      r0.supplier_name = some s → r1.supplier_name = some s →
      r0.numeric_price = some p → r1.numeric_price = some p →
      0 < p → θ ≤ 1 →
      detect_duplicate_products [r0, r1] θ = [false, true]) := by
  refine ⟨?_, ?_, ?_, ?_⟩
  · intro rows θ j
    simp only [detect_getD_eq_kFlag]
    exact kFlag_iff rows θ j
  · intro rows θ j h
    rw [detect_getD_eq_kFlag, ← Bool.not_eq_true, kFlag_iff]
    rintro ⟨i, hij, h1, _, _, _⟩
    exact h i (by omega) h1
  · intro rows θ j h
    rw [detect_getD_eq_kFlag]
    exact kFlag_none h
  · intro r0 r1 s t p θ ht0 ht1 hw hs0 hs1 hp0 hp1 hp hθ
    have hg0 : getRow [r0, r1] 0 = r0 := rfl
    have hg1 : getRow [r0, r1] 1 = r1 := rfl
    have hts : title_sim r0 r1 = 1 := by
      unfold title_sim
      rw [ht0, ht1]
      exact sim_self_of_words hw
    have hps : price_sim r0 r1 = 1 := by
      unfold price_sim
      rw [hp0, hp1]
      show (if 0 < p ∧ 0 < p then max 0 (1 - |p - p| / ((p + p) / 2)) else 0) = 1
      rw [if_pos ⟨hp, hp⟩]
      rw [sub_self, abs_zero, zero_div, sub_zero]
      norm_num
    have hsim : combined_sim r0 r1 = 1 := by
      unfold combined_sim
      rw [hts, hps]
      norm_num
    have hk0 : kFlag [r0, r1] θ 0 = false := by
      rw [← Bool.not_eq_true, kFlag_iff]
      rintro ⟨i, hij, _⟩
      omega
    have hk1 : kFlag [r0, r1] θ 1 = true := by
      rw [kFlag_iff]
      refine ⟨0, by omega, ?_, ?_, hk0, ?_⟩
      · rw [hg0, hg1, hs0, hs1]
      · rw [hg1, hs1]
        simp
      · rw [hg0, hg1, hsim]
        exact hθ
    refine list_eq_pair (detect_length _ _) ?_ ?_
    · rw [detect_getD_eq_kFlag, hk0]
    · rw [detect_getD_eq_kFlag, hk1]

/-- Witness for C4. -/
theorem claim_C4_witness :
    (detect_duplicate_products [⟨some "t", some "s", none⟩] (7 / 10)).getD 0 false
      = false ∧
    (detect_duplicate_products [⟨some "a", none, none⟩, ⟨some "b", none, none⟩]
      (7 / 10)).getD 1 false = false ∧
    detect_duplicate_products
      [⟨some "brick", some "s", some 100⟩, ⟨some "brick", some "s", some 100⟩]
      (7 / 10) = [false, true] := by
  refine ⟨?_, ?_, ?_⟩
  · refine claim_C4.2.1 _ _ _ ?_
    intro i hi
    match i, hi with
    | 0, h => exact absurd rfl h
    | Nat.succ m, _ =>
      rw [getRow_out (by simp)]
      simp [defaultDupRow, getRow]
  · exact claim_C4.2.2.1 _ _ _ rfl
  · refine claim_C4.2.2.2 _ _ "s" "brick" 100 _ rfl rfl ?_ rfl rfl rfl rfl
      (by norm_num) (by norm_num)
    have hwds : pyWords (toLowerChars ("brick" : String).data)
        = [['b', 'r', 'i', 'c', 'k']] := rfl
    simp [wordFinset, hwds]

/-- Counterexample for C4 as stated: two rows with identical (empty)
titles, the same supplier and identical positive price, at the default
threshold 0.7 ≤ 1: neither row gets flagged (the empty title has
similarity 0, so the combined score is 0.2 < 0.7), contradicting
"exactly the later row is flagged". -/
theorem claim_C4_counterexample :
    detect_duplicate_products
      [⟨some "", some "s", some 100⟩, ⟨some "", some "s", some 100⟩] (7 / 10)
      = [false, false] ∧
    ((7 : Rat) / 10) ≤ 1 ∧ (0 : Rat) < 100 := by
  refine ⟨by decide, by norm_num, by norm_num⟩
